import Mathlib

/-!
Verification of the zim-desktop-wiki core parsing/find utilities.

Shallow embedding of:
- `zim/parse/simpletree.py` (SimpleTreeElement, SimpleTreeBuilder,
  `simpletree_to_tokens`, `tokens_to_simpletree`)
- `zim/parse/encode.py` (`escape_string`, `unescape_string`, `url_encode`)
- `zim/parse/links.py` (`link_type`, `match_url_link` and the regexes they use)
- `zim/parse/regexparser.py` (`get_line_count`, `RegexParser._raise_exception`)
- `zim/gui/pageview/find.py` (`TextBufferFindMixin.find_replace_all`,
  `TextBufferFindMixin.find_clear`, `PluginInsertedObjectFindMixin`)

Python strings are modelled as `List Char` (code-point sequences, matching
Python's indexing); machine integers do not occur.  Fallible code returns
`Except`.
-/

namespace ZimSimpleTree

/-- Attribute mapping of a `SimpleTreeElement` (`attrib` may be `None`).
The Python object is a dict; it is carried through both conversions
untouched, so it is modelled as an association list. -/
abbrev Attrib := Option (List (String × String))

mutual

/-- A child of a `SimpleTreeElement` is either a plain-text string or a
nested element (`simpletree.py` lines 12-35).  `Item.elem tag attrib
children` is the element with `elt.tag`, `elt.attrib` and list contents. -/
inductive Item where
  | text (s : String) : Item
  | elem (tag : String) (attrib : Attrib) (children : ItemList) : Item

/-- The ordered children of an element (the Python `list` base class of
`SimpleTreeElement`). -/
inductive ItemList where
  | nil : ItemList
  | cons (head : Item) (tail : ItemList) : ItemList

end

/-- Tokens as used by `simpletree_to_tokens` / `tokens_to_simpletree`:
`(tag, attrib)` start tuples, `(TEXT, string)` and `(END, tag)` tuples,
where `TEXT` and `END` are the distinguished sentinels from
`zim/parse/tokenlist.py`. -/
inductive Token where
  | startTag (tag : String) (attrib : Attrib)
  | text (s : String)
  | endTag (tag : String)
deriving DecidableEq

mutual

/-- `simpletree_to_tokens` (`simpletree.py` lines 163-174): a start token,
tokens of all children (strings become `(TEXT, t)`), and an end token. -/
def simpletree_to_tokens : Item → List Token
  | .text s => [Token.text s]
  | .elem tag attrib children =>
      Token.startTag tag attrib :: (childTokens children ++ [Token.endTag tag])

/-- Tokens of the children of an element, in order (the `for t in elt`
loop of `simpletree_to_tokens`). -/
def childTokens : ItemList → List Token
  | .nil => []
  | .cons i rest => simpletree_to_tokens i ++ childTokens rest

end

def ItemList.appendL : ItemList → ItemList → ItemList
  | .nil, l => l
  | .cons h t, l => .cons h (t.appendL l)

def ItemList.reverseAux : ItemList → ItemList → ItemList
  | .nil, acc => acc
  | .cons h t, acc => t.reverseAux (.cons h acc)

def ItemList.reverse (l : ItemList) : ItemList := l.reverseAux .nil

theorem ItemList.appendL_nil (l : ItemList) : l.appendL .nil = l := by
  match l with
  | .nil => rfl
  | .cons h t => simp [ItemList.appendL, ItemList.appendL_nil t]

theorem ItemList.reverseAux_reverseAux (l acc r : ItemList) :
    (l.reverseAux acc).reverseAux r = acc.reverseAux (l.appendL r) := by
  match l with
  | .nil => rfl
  | .cons h t =>
      simp [ItemList.reverseAux, ItemList.appendL,
        ItemList.reverseAux_reverseAux t (.cons h acc) r]

theorem ItemList.reverse_reverse (l : ItemList) : l.reverse.reverse = l := by
  show (l.reverseAux .nil).reverseAux .nil = l
  rw [ItemList.reverseAux_reverseAux]
  simp [ItemList.reverseAux, ItemList.appendL_nil]

/-- One open element during stack-based processing: its tag, attributes,
and the children collected so far (in reverse order of arrival).  Python
keeps the partially-built `SimpleTreeElement` itself on the stack and
mutates its child list in place. -/
structure Frame where
  tag : String
  attrib : Attrib
  childrenRev : ItemList

/-- Appending a completed child to the innermost open element
(`stack[-1].append(...)`). -/
def Frame.addChild (f : Frame) (c : Item) : Frame :=
  ⟨f.tag, f.attrib, .cons c f.childrenRev⟩

/-- Closing an open element: its collected children in document order. -/
def Frame.close (f : Frame) : Item :=
  .elem f.tag f.attrib f.childrenRev.reverse

/-- Errors raised by the Python code: bare `assert` statements raise
`AssertionError`, indexing an empty list raises `IndexError`, and
accessing `.tag` on the plain toplevel list raises `AttributeError`. -/
inductive TreeErr where
  | assertionError (msg : String)
  | indexError
  | attributeError
deriving DecidableEq

/-- Processing state of the `tokens_to_simpletree` loop: either a
non-empty stack of open elements (innermost first), or the root element
has been closed and popped (`len(stack) == 0`, with `root` the completed
result). -/
inductive PState where
  | building (stack : List Frame)
  | finished (root : Item)

/-- One iteration of the `for t in tokens[1:]` loop of
`tokens_to_simpletree` (`simpletree.py` lines 148-157).  After the root
is closed the Python code would evaluate `stack[-1]` on an empty list and
raise `IndexError` for any further token. -/
def stStep : PState → Token → Except TreeErr PState
  | .finished _, _ => .error .indexError
  | .building [], _ => .error .indexError
  | .building (f :: rest), .text s =>
      .ok (.building (f.addChild (.text s) :: rest))
  | .building (f :: rest), .endTag tg =>
      if tg = f.tag then
        match rest with
        | [] => .ok (.finished f.close)
        | g :: gs => .ok (.building (g.addChild f.close :: gs))
      else
        .error (.assertionError "unmatched end tag")
  | .building (f :: rest), .startTag tg a =>
      .ok (.building (⟨tg, a, .nil⟩ :: f :: rest))

/-- `tokens_to_simpletree` (`simpletree.py` lines 142-160).  The first
token is unpacked as `SimpleTreeElement(*tokens[0])`, i.e. it is taken to
be a `(tag, attrib)` start token; the `TEXT`/`END` sentinels are not
strings, so a stream starting with a text or end token cannot produce a
string-tagged root and is modelled as an error (unreachable for token
streams produced by `simpletree_to_tokens`).  The final
`assert len(stack) == 0` rejects unclosed elements. -/
def tokens_to_simpletree : List Token → Except TreeErr Item
  | [] => .error .indexError
  | Token.startTag tg a :: rest => do
      let fin ← rest.foldlM stStep (PState.building [⟨tg, a, .nil⟩])
      match fin with
      | .finished root => .ok root
      | .building _ => .error (.assertionError "unclosed elements")
  | _ :: _ => .error (.assertionError "first token is not a start token")

/-- State of a `SimpleTreeBuilder` (`simpletree.py` lines 86-123):
`toplevel` holds completed top-level items in reverse order of arrival,
`openStack` the currently open elements, innermost first. -/
structure BuilderState where
  toplevelRev : List Item
  openStack : List Frame

/-- `SimpleTreeBuilder.start`. -/
def builder_start (b : BuilderState) (tg : String) (a : Attrib) : BuilderState :=
  ⟨b.toplevelRev, ⟨tg, a, .nil⟩ :: b.openStack⟩

/-- `SimpleTreeBuilder.text`. -/
def builder_text (b : BuilderState) (s : String) : BuilderState :=
  match b.openStack with
  | [] => ⟨Item.text s :: b.toplevelRev, []⟩
  | f :: rest => ⟨b.toplevelRev, f.addChild (.text s) :: rest⟩

/-- `SimpleTreeBuilder.end` (`simpletree.py` lines 111-114): pops the
innermost open element and raises `AssertionError` when its tag does not
match.  With no open element Python pops the plain toplevel list and
crashes on `element.tag` (`AttributeError`). -/
def builder_end (b : BuilderState) (tg : String) : Except TreeErr BuilderState :=
  match b.openStack with
  | [] => .error .attributeError
  | f :: rest =>
      if f.tag ≠ tg then
        .error (.assertionError "Unmatched tag at end")
      else
        match rest with
        | [] => .ok ⟨f.close :: b.toplevelRev, []⟩
        | g :: gs => .ok ⟨b.toplevelRev, g.addChild f.close :: gs⟩

/-- `SimpleTreeBuilder.get_root` (`simpletree.py` lines 94-102). -/
def builder_get_root (b : BuilderState) : Except TreeErr Item :=
  match b.openStack with
  | _ :: _ => .error (.assertionError "Did not finish processing")
  | [] =>
      match b.toplevelRev with
      | [root] => .ok root
      | _ => .error (.assertionError "Not a single toplevel element")

theorem exceptOk_bind (v : PState) (k : PState → Except TreeErr PState) :
    ((Except.ok v : Except TreeErr PState) >>= k) = k v := rfl

theorem foldlM_stStep_append (l1 l2 : List Token) (s : PState) :
    (l1 ++ l2).foldlM stStep s
      = (l1.foldlM stStep s) >>= (fun s2 => l2.foldlM stStep s2) := by
  match l1 with
  | [] => simp [List.foldlM]
  | a :: t =>
      simp only [List.cons_append, List.foldlM]
      cases h : stStep s a with
      | ok s2 => exact foldlM_stStep_append t l2 s2
      | error e => rfl

mutual

theorem processItem (i : Item) (f : Frame) (rest : List Frame) :
    (simpletree_to_tokens i).foldlM stStep (.building (f :: rest))
      = .ok (.building (f.addChild i :: rest)) := by
  match i with
  | .text s =>
      simp [simpletree_to_tokens, List.foldlM, stStep]
  | .elem tag attrib children =>
      show (Token.startTag tag attrib :: (childTokens children ++ [Token.endTag tag])).foldlM
            stStep (.building (f :: rest)) = _
      simp only [List.foldlM, stStep, exceptOk_bind]
      rw [foldlM_stStep_append, processChildren children ⟨tag, attrib, .nil⟩ (f :: rest),
        exceptOk_bind]
      simp only [List.foldlM, stStep, exceptOk_bind, if_pos rfl]
      show Except.ok (PState.building (f.addChild (Frame.close ⟨tag, attrib,
        children.reverseAux .nil⟩) :: rest)) = _
      have : Frame.close ⟨tag, attrib, children.reverseAux .nil⟩
          = Item.elem tag attrib children := by
        show Item.elem tag attrib ((children.reverseAux .nil).reverse) = _
        rw [show children.reverseAux .nil = children.reverse from rfl,
          ItemList.reverse_reverse]
      rw [this]

theorem processChildren (items : ItemList) (f : Frame) (rest : List Frame) :
    (childTokens items).foldlM stStep (.building (f :: rest))
      = .ok (.building (⟨f.tag, f.attrib, items.reverseAux f.childrenRev⟩ :: rest)) := by
  match items with
  | .nil =>
      show Except.ok (PState.building (f :: rest)) = _
      rfl
  | .cons i tail =>
      show (simpletree_to_tokens i ++ childTokens tail).foldlM stStep _ = _
      rw [foldlM_stStep_append, processItem i f rest, exceptOk_bind,
        processChildren tail (f.addChild i) rest]
      rfl

end

end ZimSimpleTree

namespace ZimSimpleTree

/-- C1: token/tree conversion is a lossless round trip: for every
`SimpleTreeElement` tree, `tokens_to_simpletree(simpletree_to_tokens(t))`
equals `t` (same tag, attributes and ordered children); and a token
stream whose `END` token does not match the innermost open tag raises an
`AssertionError` both in the `tokens_to_simpletree` loop and in
`SimpleTreeBuilder.end`. -/
theorem simpletree_roundtrip_and_end_mismatch :
    (∀ (tag : String) (attrib : Attrib) (children : ItemList),
      tokens_to_simpletree (simpletree_to_tokens (Item.elem tag attrib children))
        = Except.ok (Item.elem tag attrib children))
    ∧ (∀ (f : Frame) (rest : List Frame) (tg : String), tg ≠ f.tag →
      stStep (PState.building (f :: rest)) (Token.endTag tg)
        = Except.error (TreeErr.assertionError "unmatched end tag"))
    ∧ (∀ (b : BuilderState) (f : Frame) (rest : List Frame) (tg : String),
      b.openStack = f :: rest → f.tag ≠ tg →
      builder_end b tg = Except.error (TreeErr.assertionError "Unmatched tag at end")) := by
  refine ⟨?_, ?_, ?_⟩
  · intro tag attrib children
    show tokens_to_simpletree
      (Token.startTag tag attrib :: (childTokens children ++ [Token.endTag tag])) = _
    simp only [tokens_to_simpletree]
    rw [foldlM_stStep_append, processChildren children ⟨tag, attrib, .nil⟩ [],
      exceptOk_bind]
    simp only [List.foldlM, stStep, if_pos rfl, exceptOk_bind]
    show Except.ok (Frame.close ⟨tag, attrib, children.reverseAux .nil⟩) = _
    have : Frame.close ⟨tag, attrib, children.reverseAux .nil⟩
        = Item.elem tag attrib children := by
      show Item.elem tag attrib ((children.reverseAux .nil).reverse) = _
      rw [show children.reverseAux .nil = children.reverse from rfl,
        ItemList.reverse_reverse]
    rw [this]
  · intro f rest tg hne
    simp [stStep, hne]
  · intro b f rest tg hstack hne
    simp [builder_end, hstack, hne]

/-- Witness for C1 at concrete inputs: a small two-level tree
round-trips, and closing with a wrong tag is an `AssertionError` in both
the direct conversion loop and the builder. -/
theorem simpletree_roundtrip_and_end_mismatch_witness :
    tokens_to_simpletree (simpletree_to_tokens
        (Item.elem "zim-tree" none
          (.cons (.text "hello ")
            (.cons (.elem "strong" (some [("x", "1")]) (.cons (.text "bold") .nil))
              .nil))))
      = Except.ok (Item.elem "zim-tree" none
          (.cons (.text "hello ")
            (.cons (.elem "strong" (some [("x", "1")]) (.cons (.text "bold") .nil))
              .nil)))
    ∧ stStep (PState.building [⟨"strong", none, .nil⟩]) (Token.endTag "p")
        = Except.error (TreeErr.assertionError "unmatched end tag")
    ∧ builder_end ⟨[], [⟨"strong", none, .nil⟩]⟩ "p"
        = Except.error (TreeErr.assertionError "Unmatched tag at end") :=
  ⟨simpletree_roundtrip_and_end_mismatch.1 "zim-tree" none _,
   simpletree_roundtrip_and_end_mismatch.2.1 ⟨"strong", none, .nil⟩ [] "p"
     (by decide),
   simpletree_roundtrip_and_end_mismatch.2.2 ⟨[], [⟨"strong", none, .nil⟩]⟩
     ⟨"strong", none, .nil⟩ [] "p" rfl (by decide)⟩

end ZimSimpleTree

namespace ZimEncode

/-! Model of `zim/parse/encode.py`.  Strings are `List Char`; the regex
substitutions used there replace one character per match and pass
unmatched characters through, so they are modelled per character. -/

/-- `_escape` (`encode.py` lines 8-17): replacement for one matched
character. -/
def escapeChar (c : Char) : List Char :=
  if c = '\n' then ['\\', 'n']
  else if c = '\r' then ['\\', 'r']
  else if c = '\t' then ['\\', 't']
  else ['\\', c]

/-- Membership in the character class `[\n\r\t\\ <chars>]` built by
`escape_string`.  The extra characters are treated as literal class
members (regex metacharacter corner cases such as `]` or `a-z` ranges in
`chars` are outside the model). -/
def escClass (chars : List Char) (c : Char) : Bool :=
  c = '\n' || c = '\r' || c = '\t' || c = '\\' || decide (c ∈ chars)

/-- `escape_string` (`encode.py` lines 20-24): escape newline, carriage
return, tab, backslash and any character in `chars` with a backslash. -/
def escape_string (s : List Char) (chars : List Char) : List Char :=
  s.flatMap (fun c => if escClass chars c then escapeChar c else [c])

/-- `_unescape` (`encode.py` lines 27-34): the character following the
backslash maps to newline for `n`, tab for `t`, else to itself. -/
def unescapeChar (c : Char) : Char :=
  if c = 'n' then '\n' else if c = 't' then '\t' else c

/-- `unescape_string` (`encode.py` lines 37-42): `re.sub('\\\\.', ...)`.
`.` does not match a newline, so a backslash followed by a newline is not
an escape sequence and is left in place. -/
def unescape_string : List Char → List Char
  | [] => []
  | [c] => [c]
  | c1 :: c2 :: rest =>
      if c1 = '\\' ∧ c2 ≠ '\n' then unescapeChar c2 :: unescape_string rest
      else c1 :: unescape_string (c2 :: rest)

theorem unescape_string_cons_unescaped (c : Char) (l : List Char) (h : c ≠ '\\') :
    unescape_string (c :: l) = c :: unescape_string l := by
  match l with
  | [] => rfl
  | c2 :: rest => simp [unescape_string, h]

theorem unescape_string_cons_escaped (k : Char) (l : List Char) (h : k ≠ '\n') :
    unescape_string ('\\' :: k :: l) = unescapeChar k :: unescape_string l := by
  simp [unescape_string, h]

/-- The map realised by escape-then-unescape on each character. -/
def crToLetter (c : Char) : Char := if c = '\r' then 'r' else c

/-- Round-trip behaviour of one escaped character: unescaping what
`escape_string` produced turns `\r` into a literal `r` and restores every
other character (provided the extra class does not contain `n` or `t`). -/
theorem unescape_escape_char (chars : List Char) (c : Char)
    (hn : 'n' ∉ chars) (ht : 't' ∉ chars) (hcls : escClass chars c = true) :
    ∃ k, escapeChar c = ['\\', k] ∧ k ≠ '\n' ∧ unescapeChar k = crToLetter c := by
  by_cases h1 : c = '\n'
  · subst h1; exact ⟨'n', rfl, by decide, by decide⟩
  by_cases h2 : c = '\r'
  · subst h2; exact ⟨'r', rfl, by decide, by decide⟩
  by_cases h3 : c = '\t'
  · subst h3; exact ⟨'t', rfl, by decide, by decide⟩
  · refine ⟨c, by simp [escapeChar, h1, h2, h3], h1, ?_⟩
    have hcn : c ≠ 'n' := by
      intro hc; subst hc
      simp [escClass] at hcls
      exact hn hcls
    have hct : c ≠ 't' := by
      intro hc; subst hc
      simp [escClass] at hcls
      exact ht hcls
    simp [unescapeChar, crToLetter, hcn, hct, h2]

theorem unescape_escape_map (s : List Char) (chars : List Char)
    (hn : 'n' ∉ chars) (ht : 't' ∉ chars) :
    unescape_string (escape_string s chars) = s.map crToLetter := by
  match s with
  | [] => rfl
  | c :: rest =>
      show unescape_string
          ((if escClass chars c then escapeChar c else [c]) ++ escape_string rest chars)
        = crToLetter c :: rest.map crToLetter
      by_cases hcls : escClass chars c = true
      · rw [if_pos hcls]
        obtain ⟨k, he, e2, e3⟩ := unescape_escape_char chars c hn ht hcls
        rw [he]
        show unescape_string ('\\' :: k :: escape_string rest chars) = _
        rw [unescape_string_cons_escaped k _ e2, e3,
          unescape_escape_map rest chars hn ht]
      · rw [if_neg hcls]
        have hc : c ≠ '\\' := by
          intro hc; subst hc
          exact hcls (by simp [escClass])
        show unescape_string (c :: escape_string rest chars) = _
        rw [unescape_string_cons_unescaped c _ hc, unescape_escape_map rest chars hn ht]
        have : crToLetter c = c := by
          have : c ≠ '\r' := by
            intro hr; subst hr; exact hcls (by simp [escClass])
          simp [crToLetter, this]
        rw [this]

theorem map_eq_self_of_mem (l : List Char) (f : Char → Char) (h : l.map f = l) :
    ∀ c ∈ l, f c = c := by
  match l with
  | [] => intro c hc; cases hc
  | a :: t =>
      simp only [List.map] at h
      injection h with h1 h2
      intro c hc
      cases hc with
      | head => exact h1
      | tail _ hc => exact map_eq_self_of_mem t f h2 c hc

/-- C10: for every string without a carriage return, and every extra
escape class that excludes the letters `n` and `t`,
`unescape_string(escape_string(s, chars))` equals `s`; and the round trip
fails for every string containing `\r` (escaping maps `\r` to `\\r`, but
unescaping maps `\\r` to the letter `r`). -/
theorem escape_unescape_roundtrip :
    (∀ (s chars : List Char), 'n' ∉ chars → 't' ∉ chars → '\r' ∉ s →
        unescape_string (escape_string s chars) = s)
    ∧ (∀ (s chars : List Char), 'n' ∉ chars → 't' ∉ chars → '\r' ∈ s →
        unescape_string (escape_string s chars) ≠ s) := by
  constructor
  · intro s chars hn ht hr
    rw [unescape_escape_map s chars hn ht]
    have hall : ∀ c ∈ s, crToLetter c = c := by
      intro c hc
      have : c ≠ '\r' := fun h => hr (h ▸ hc)
      simp [crToLetter, this]
    calc s.map crToLetter = s.map id := List.map_congr_left hall
      _ = s := List.map_id s
  · intro s chars hn ht hr heq
    rw [unescape_escape_map s chars hn ht] at heq
    have := map_eq_self_of_mem s crToLetter heq '\r' hr
    simp [crToLetter] at this

/-- Witness for C10: the round trip restores a concrete string with
newline, tab, backslash and an escaped `;`, and fails on a string
containing `\r`. -/
theorem escape_unescape_roundtrip_witness :
    unescape_string (escape_string ['a', '\n', '\t', '\\', ';', 'b'] [';']) =
        ['a', '\n', '\t', '\\', ';', 'b']
    ∧ unescape_string (escape_string ['a', '\r', 'b'] [';']) ≠ ['a', '\r', 'b'] :=
  ⟨escape_unescape_roundtrip.1 _ [';'] (by decide) (by decide) (by decide),
   escape_unescape_roundtrip.2 _ [';'] (by decide) (by decide) (by decide)⟩

/-! URL percent encoding (`encode.py` lines 106-161). -/

/-- Membership in `[A-Za-z0-9\-_.~]`, the complement of
`_url_encode_re` (rfc3986 unreserved characters). -/
def urlUnreserved (c : Char) : Bool :=
  ('A' ≤ c && c ≤ 'Z') || ('a' ≤ c && c ≤ 'z') || ('0' ≤ c && c ≤ '9')
    || c = '-' || c = '_' || c = '.' || c = '~'

/-- Membership in `[A-Za-z0-9\-_.~/]`, the complement of
`_url_encode_path_re` (unreserved plus `/`). -/
def urlUnreservedPath (c : Char) : Bool :=
  urlUnreserved c || c = '/'

/-- UTF-8 encoding of one code point (`bytes(match.group(0), 'UTF-8')`),
written with division/modulo arithmetic. -/
def utf8Bytes (c : Char) : List Nat :=
  if c.toNat < 0x80 then [c.toNat]
  else if c.toNat < 0x800 then
    [0xC0 + c.toNat / 64, 0x80 + c.toNat % 64]
  else if c.toNat < 0x10000 then
    [0xE0 + c.toNat / 4096, 0x80 + c.toNat / 64 % 64, 0x80 + c.toNat % 64]
  else
    [0xF0 + c.toNat / 262144, 0x80 + c.toNat / 4096 % 64,
      0x80 + c.toNat / 64 % 64, 0x80 + c.toNat % 64]

/-- Uppercase hexadecimal digit (as produced by `'%02X' % b`). -/
def hexDigit (n : Nat) : Char :=
  ['0', '1', '2', '3', '4', '5', '6', '7', '8', '9', 'A', 'B', 'C', 'D', 'E', 'F'].getD n '0'

/-- `'%%%02X' % b` for one byte. -/
def pctByte (b : Nat) : List Char := ['%', hexDigit (b / 16), hexDigit (b % 16)]

/-- `_url_encode` (`encode.py` lines 126-128): percent-encode the UTF-8
bytes of the matched character. -/
def urlEncodeChar (c : Char) : List Char := (utf8Bytes c).flatMap pctByte

/-- `_url_encode_readable` (`encode.py` lines 130-135): encode only space
(`ord == 32`) and non-ASCII (`ord > 127`) characters; return everything
else unchanged. -/
def urlEncodeReadableChar (c : Char) : List Char :=
  if c.toNat = 32 || c.toNat > 127 then urlEncodeChar c else [c]

/-- The three url-encoding modes of `url_encode`. -/
inductive UrlEncodeMode where
  | data | path | readable
deriving DecidableEq

/-- `url_encode` (`encode.py` lines 138-161).  `re.sub` with a
single-character class replaces exactly the characters matching the class
and passes the others through, hence the per-character `flatMap`. -/
def url_encode (url : List Char) : UrlEncodeMode → List Char
  | .data => url.flatMap (fun c => if urlUnreserved c then [c] else urlEncodeChar c)
  | .path => url.flatMap (fun c => if urlUnreservedPath c then [c] else urlEncodeChar c)
  | .readable => url.flatMap (fun c => if urlUnreserved c then [c] else urlEncodeReadableChar c)

/-- The per-character action of readable-mode encoding. -/
def readableStep (c : Char) : List Char :=
  if urlUnreserved c then [c] else urlEncodeReadableChar c

theorem url_encode_readable_eq_flatMap (url : List Char) :
    url_encode url .readable = url.flatMap readableStep := rfl

theorem unreserved_ascii_nonspace (c : Char) (h : urlUnreserved c = true) :
    c.toNat ≤ 127 ∧ c ≠ ' ' := by
  simp only [urlUnreserved, Bool.or_eq_true, Bool.and_eq_true, decide_eq_true_eq] at h
  have hval : c.toNat ≤ 127 ∧ c.toNat ≠ 32 := by
    rcases h with ((((((⟨h1, h2⟩ | ⟨h1, h2⟩) | ⟨h1, h2⟩) | h1) | h1) | h1) | h1)
    · rw [Char.le_def] at h1 h2
      have g1 : (65 : Nat) ≤ c.toNat := h1
      have g2 : c.toNat ≤ 90 := h2
      omega
    · rw [Char.le_def] at h1 h2
      have g1 : (97 : Nat) ≤ c.toNat := h1
      have g2 : c.toNat ≤ 122 := h2
      omega
    · rw [Char.le_def] at h1 h2
      have g1 : (48 : Nat) ≤ c.toNat := h1
      have g2 : c.toNat ≤ 57 := h2
      omega
    · subst h1; exact ⟨by decide, by decide⟩
    · subst h1; exact ⟨by decide, by decide⟩
    · subst h1; exact ⟨by decide, by decide⟩
    · subst h1; exact ⟨by decide, by decide⟩
  exact ⟨hval.1, fun hc => hval.2 (by rw [hc]; rfl)⟩

theorem readableStep_ascii (c : Char) (h1 : c.toNat ≤ 127) (h2 : c ≠ ' ') :
    readableStep c = [c] := by
  have h32 : c.toNat ≠ 32 := fun hc => h2 (Char.ext (UInt32.ext hc))
  unfold readableStep urlEncodeReadableChar
  split
  · rfl
  · rw [if_neg]
    simp only [Bool.or_eq_true, decide_eq_true_eq]
    omega

theorem char_toNat_lt (c : Char) : c.toNat < 1114112 := by
  rcases c.valid with h | ⟨_, h⟩
  · calc c.toNat < 55296 := h
      _ < 1114112 := by omega
  · exact h

theorem hexDigit_ascii (n : Nat) : (hexDigit n).toNat ≤ 127 ∧ hexDigit n ≠ ' ' := by
  by_cases h : n < 16
  · interval_cases n <;> exact ⟨by decide, by decide⟩
  · have : hexDigit n = '0' := by
      unfold hexDigit
      apply List.getD_eq_default
      simpa using Nat.le_of_not_lt h
    rw [this]
    exact ⟨by decide, by decide⟩

theorem utf8Bytes_lt_256 (c : Char) : ∀ b ∈ utf8Bytes c, b < 256 := by
  intro b hb
  have hv := char_toNat_lt c
  unfold utf8Bytes at hb
  split at hb
  · simp at hb; omega
  · split at hb
    · have h64 : c.toNat / 64 < 32 := by omega
      have hm : c.toNat % 64 < 64 := Nat.mod_lt _ (by omega)
      simp at hb
      rcases hb with hb | hb <;> omega
    · split at hb
      · have h4096 : c.toNat / 4096 < 16 := by omega
        have hm1 : c.toNat / 64 % 64 < 64 := Nat.mod_lt _ (by omega)
        have hm : c.toNat % 64 < 64 := Nat.mod_lt _ (by omega)
        simp at hb
        rcases hb with hb | hb | hb <;> omega
      · have h218 : c.toNat / 262144 < 5 := by omega
        have hm2 : c.toNat / 4096 % 64 < 64 := Nat.mod_lt _ (by omega)
        have hm1 : c.toNat / 64 % 64 < 64 := Nat.mod_lt _ (by omega)
        have hm : c.toNat % 64 < 64 := Nat.mod_lt _ (by omega)
        simp at hb
        rcases hb with hb | hb | hb | hb <;> omega

theorem readableStep_output_ascii (c : Char) :
    ∀ d ∈ readableStep c, d.toNat ≤ 127 ∧ d ≠ ' ' := by
  intro d hd
  unfold readableStep at hd
  by_cases hu : urlUnreserved c = true
  · rw [if_pos hu] at hd
    simp at hd
    rw [hd]
    exact unreserved_ascii_nonspace c hu
  · rw [if_neg hu] at hd
    unfold urlEncodeReadableChar at hd
    by_cases he : (c.toNat = 32 || c.toNat > 127) = true
    · rw [if_pos he] at hd
      unfold urlEncodeChar at hd
      rw [List.mem_flatMap] at hd
      obtain ⟨b, hb, hdb⟩ := hd
      have hb256 := utf8Bytes_lt_256 c b hb
      unfold pctByte at hdb
      simp at hdb
      rcases hdb with hdb | hdb | hdb
      · subst hdb; exact ⟨by decide, by decide⟩
      · subst hdb; exact hexDigit_ascii _
      · subst hdb; exact hexDigit_ascii _
    · rw [if_neg he] at hd
      simp at hd
      rw [hd]
      simp only [Bool.or_eq_true, decide_eq_true_eq, not_or] at he
      have h127 : ¬(127 < c.toNat) := he.2
      refine ⟨by omega, fun hc => he.1 (by rw [hc]; rfl)⟩

/-- C8: readable-mode url encoding touches only the space character and
non-ASCII characters (every all-ASCII-no-space string, `%` included, is
returned unchanged; space and non-ASCII characters become percent-encoded
UTF-8 bytes), and it is idempotent on every string. -/
theorem url_encode_readable_characterisation_and_idempotent :
    (∀ s : List Char, (∀ c ∈ s, c.toNat ≤ 127 ∧ c ≠ ' ') →
        url_encode s .readable = s)
    ∧ (∀ c : Char, c = ' ' ∨ 127 < c.toNat →
        url_encode [c] .readable = urlEncodeChar c)
    ∧ (∀ s : List Char,
        url_encode (url_encode s .readable) .readable = url_encode s .readable) := by
  refine ⟨?_, ?_, ?_⟩
  · intro s hs
    rw [url_encode_readable_eq_flatMap]
    calc s.flatMap readableStep
        = s.flatMap (fun c => [c]) :=
          List.flatMap_congr (fun c hc => readableStep_ascii c (hs c hc).1 (hs c hc).2)
      _ = s := by
          rw [List.flatMap_singleton']
  · intro c hc
    rw [url_encode_readable_eq_flatMap]
    show readableStep c ++ [] = urlEncodeChar c
    rw [List.append_nil]
    have hnot : urlUnreserved c = false := by
      by_contra h
      have := unreserved_ascii_nonspace c (by
        cases hu : urlUnreserved c
        · exact absurd hu h
        · rfl)
      rcases hc with hc | hc
      · exact this.2 hc
      · omega
    unfold readableStep
    rw [hnot]
    simp only [Bool.false_eq_true, if_false]
    unfold urlEncodeReadableChar
    rw [if_pos]
    simp only [Bool.or_eq_true, decide_eq_true_eq]
    rcases hc with hc | hc
    · left; rw [hc]; rfl
    · right; omega
  · intro s
    rw [url_encode_readable_eq_flatMap, url_encode_readable_eq_flatMap,
      List.flatMap_assoc]
    refine List.flatMap_congr (fun c _ => ?_)
    calc (readableStep c).flatMap readableStep
        = (readableStep c).flatMap (fun d => [d]) :=
          List.flatMap_congr (fun d hd =>
            readableStep_ascii d (readableStep_output_ascii c d hd).1
              (readableStep_output_ascii c d hd).2)
      _ = readableStep c := by rw [List.flatMap_singleton']

/-- Witness for C8 at concrete inputs: an ASCII string containing `%` is
unchanged, a space becomes `%20`, and encoding is idempotent. -/
theorem url_encode_readable_witness :
    url_encode ['a', '%', '2', '0', '/', 'b'] .readable = ['a', '%', '2', '0', '/', 'b']
    ∧ url_encode [' '] .readable = ['%', '2', '0']
    ∧ url_encode (url_encode ['a', ' ', 'b'] .readable) .readable
        = url_encode ['a', ' ', 'b'] .readable := by
  refine ⟨url_encode_readable_characterisation_and_idempotent.1 _ (by decide), ?_, ?_⟩
  · have h := url_encode_readable_characterisation_and_idempotent.2.1 ' ' (Or.inl rfl)
    rw [h]
    decide
  · exact url_encode_readable_characterisation_and_idempotent.2.2 ['a', ' ', 'b']

end ZimEncode

namespace ZimLinks

/-! Model of `zim/parse/links.py`.  The regexes used there are translated
into deterministic scanners; comments record why backtracking cannot
produce a different result in each case. -/

/-- Python `\w` (with `re.U`), modelled over the ASCII range: letters,
digits and underscore.  Non-ASCII word characters do not occur in any of
the examined inputs. -/
def isWordChar (c : Char) : Bool := c.isAlphanum || c = '_'

/-- Python `\s`: the whitespace characters of the `re` module. -/
def isSpaceChar (c : Char) : Bool :=
  c = ' ' || c = '\t' || c = '\n' || c = '\r' || c = '\x0b' || c = '\x0c'

/-- Character class `[\w\-]` (the domain classes of `url_link_re`; the
email domain class `[\w\-_]` is the same set since `_` is in `\w`). -/
def isDomainChar (c : Char) : Bool := isWordChar c || c = '-'

/-- Splits off the maximal leading run of characters satisfying `p`
(the behaviour of a greedy `X+`/`X*` whose class excludes the following
delimiter, so regex backtracking can never shorten it). -/
def takeRun (p : Char → Bool) : List Char → List Char × List Char
  | [] => ([], [])
  | c :: rest =>
      if p c then
        ((c :: (takeRun p rest).1), (takeRun p rest).2)
      else
        ([], c :: rest)

theorem takeRun_length (p : Char → Bool) (l : List Char) :
    (takeRun p l).1.length + (takeRun p l).2.length = l.length := by
  match l with
  | [] => rfl
  | c :: rest =>
      by_cases h : p c = true
      · have ih := takeRun_length p rest
        simp [takeRun, h]
        omega
      · simp [takeRun, h]

theorem takeRun_all_stop (p : Char → Bool) (run rest : List Char)
    (h1 : ∀ c ∈ run, p c = true)
    (h2 : ∀ h ∈ rest.head?, p h = false) :
    takeRun p (run ++ rest) = (run, rest) := by
  match run with
  | [] =>
      match rest with
      | [] => rfl
      | h :: t =>
          have hh := h2 h (by simp)
          simp [takeRun, hh]
  | c :: run' =>
      have hc := h1 c (by simp)
      have ih := takeRun_all_stop p run' rest (fun d hd => h1 d (by simp [hd])) h2
      simp [takeRun, hc, ih]

/-- Greedy match of `([\w\-]+\.)*[\w\-]+` starting at the given list:
consumes dot-separated labels as long as each `.` is followed by another
label character, returning the labels and the remaining text.  `cur` is
the current label collected so far, in reverse.  This matches the
backtracking regex: the label runs are forced maximal (`.` is not a label
character) and a repetition that leaves no final label is undone by
dropping its trailing `.`. -/
def domainAux : List Char → List Char → List (List Char) × List Char
  | [], cur => ([cur.reverse], [])
  | c :: rest, cur =>
      if isDomainChar c then domainAux rest (c :: cur)
      else if c = '.' then
        match rest with
        | [] => ([cur.reverse], c :: rest)
        | d :: _ =>
            if isDomainChar d then
              ((cur.reverse :: (domainAux rest []).1), (domainAux rest []).2)
            else ([cur.reverse], c :: rest)
      else ([cur.reverse], c :: rest)

/-- Greedy domain match at the head of `s`: the dot-separated labels and
the rest, or `none` when no label character starts `s`. -/
def domainScan (s : List Char) : Option (List (List Char) × List Char) :=
  match s with
  | [] => none
  | c :: _ => if isDomainChar c then some (domainAux s []) else none

/-- The text matched by the domain part, `m.group('domain')`. -/
def joinDots (labels : List (List Char)) : List Char :=
  List.intercalate ['.'] labels

/-- The three named alternatives of `url_link_re` (`links.py` lines
114-136); `m.lastgroup` names the branch that matched. -/
inductive MatchBranch where
  | url | email | fileuri
deriving DecidableEq

/-- Result of `url_link_re.match`: the branch, the full matched text
(`m.group(0)`) and, for the url branch, the dot-separated labels of
`m.group('domain')` (the labels contain no `.`, so splitting the group on
`.` returns exactly these labels). -/
structure UrlLinkMatch where
  branch : MatchBranch
  matched : List Char
  domainLabels : List (List Char)
deriving DecidableEq

/-- Scheme alternation `(www\.|https?://|\w+://)` tried in order at the
head.  When `www.` matches, the later alternatives cannot rescue a failed
continuation (`https?://` needs an `h`, and the maximal `\w+` run of a
`www.`-prefixed string is `www`, which is not followed by `://`); when
`https?://` matches, `\w+://` would consume exactly the same prefix; so
ordered matching without cross-alternative backtracking is faithful. -/
def urlSchemeSplit (s : List Char) : Option (List Char × List Char) :=
  if s.take 4 = "www.".toList then some ("www.".toList, s.drop 4)
  else if s.take 8 = "https://".toList then some ("https://".toList, s.drop 8)
  else if s.take 7 = "http://".toList then some ("http://".toList, s.drop 7)
  else
    match takeRun isWordChar s with
    | ([], _) => none
    | (r, t) =>
        if t.take 3 = "://".toList then some (r ++ "://".toList, t.drop 3)
        else none

/-- File characters `[^\s"<>\']`. -/
def isFileChar (c : Char) : Bool :=
  !(isSpaceChar c || c = '"' || c = '<' || c = '>' || c = '\'')

/-- Local-part characters `[\w\.\-_+]` of the email alternative. -/
def isEmailLocalChar (c : Char) : Bool :=
  isWordChar c || c = '.' || c = '-' || c = '+'

/-- `(mailto:)?[\w\.\-_+]+@`: the local class excludes `:` and `@`, so
the run after an optional literal `mailto:` is forced maximal and must be
followed by `@`.  If `mailto:` is present but the continuation fails, the
regex retries without it; then the maximal run stops at the `:` of
`mailto:`, where the required `@` can never follow. -/
def emailLocalSplit (s : List Char) : Option (List Char × List Char) :=
  let attempt : List Char → List Char → Option (List Char × List Char) :=
    fun pre t =>
      match takeRun isEmailLocalChar t with
      | ([], _) => none
      | (r, t2) =>
          match t2 with
          | '@' :: t3 => some (pre ++ r ++ ['@'], t3)
          | _ => none
  if s.take 7 = "mailto:".toList then
    match attempt ("mailto:".toList) (s.drop 7) with
    | some x => some x
    | none => attempt [] s
  else attempt [] s

/-- The url alternative `\b(?!__)(?P<url>...)` of `url_link_re`.  The
leading `\b` at position 0 holds exactly when the first character is a
word character, which each scheme alternative implies. -/
def matchUrlBranch (s : List Char) : Option UrlLinkMatch :=
  if s.take 2 = ['_', '_'] then none
  else
    match urlSchemeSplit s with
    | none => none
    | some (pre, rest) =>
        match domainScan rest with
        | none => none
        | some (labels, rest2) =>
            let tail := (takeRun (fun c => !(isSpaceChar c || c = '<')) rest2).1
            some ⟨.url, pre ++ joinDots labels ++ tail, labels⟩

/-- The email alternative `(?!__)(?P<email>...)` of `url_link_re`: an
optional `mailto:`, the local part, `@`, then `([\w\-_]+\.)+[\w\-_]+`,
i.e. at least two dot-separated labels (the `domainLabels` field is only
used by the url branch and is left empty). -/
def matchEmailBranch (s : List Char) : Option UrlLinkMatch :=
  if s.take 2 = ['_', '_'] then none
  else
    match emailLocalSplit s with
    | none => none
    | some (localPart, rest) =>
        match domainScan rest with
        | none => none
        | some (labels, _) =>
            if labels.length ≥ 2 then
              some ⟨.email, localPart ++ joinDots labels, []⟩
            else none

/-- The file alternative `(?P<fileuri>file:/+[^\s"<>\']+)`: after
`file:` the maximal run of file characters must start with a slash and
have length at least two (`/+` plus a nonempty final class, which itself
accepts `/`). -/
def matchFileBranch (s : List Char) : Option UrlLinkMatch :=
  if s.take 5 = "file:".toList then
    match takeRun isFileChar (s.drop 5) with
    | (run, _) =>
        if run.head? = some '/' ∧ run.length ≥ 2 then
          some ⟨.fileuri, "file:".toList ++ run, []⟩
        else none
  else none

/-- `url_link_re.match(text)`: the three alternatives in order, anchored
at the start of `text`. -/
def url_link_re_match (s : List Char) : Option UrlLinkMatch :=
  match matchUrlBranch s with
  | some m => some m
  | none =>
      match matchEmailBranch s with
      | some m => some m
      | none => matchFileBranch s

/-- `url_link_trailing_punctuation` (`links.py` line 139). -/
def url_link_trailing_punctuation : List Char :=
  ['?', '!', '.', ',', ':', '*', '_', '~', '\'', '"']

/-- Stripping loop for email matches (`links.py` lines 154-163), working
on the reversed string: a trailing `.` is stripped, a trailing `__` is
stripped as a pair, a trailing `-` or lone `_` rejects the match.  A
single remaining `_` would raise `IndexError` in Python (`url[-2]` on a
length-1 string); it is unreachable for actual email matches, which
always retain the `@`. -/
def stripEmailRev : List Char → Option (List Char)
  | [] => none
  | '.' :: rest => stripEmailRev rest
  | '_' :: '_' :: rest => stripEmailRev rest
  | ['_'] => none
  | '_' :: _ :: _ => none
  | '-' :: _ => none
  | l => some l

/-- The email strip loop on the match (`return url or None`). -/
def stripEmail (l : List Char) : Option (List Char) :=
  (stripEmailRev l.reverse).map List.reverse

/-- One pass of the url/file stripping loop (`links.py` lines 174-188) on
the reversed string, with explicit fuel; every iteration consumes at
least one character, so fuel equal to the length never runs out.  A
trailing punctuation character, or an unmatched `)`, is stripped one at a
time; a trailing `;` closing an HTML entity reference `&\w+;` strips the
whole entity, otherwise one character. -/
def stripUrlRevF : Nat → List Char → Option (List Char)
  | _, [] => none
  | 0, _ :: _ => none
  | fuel + 1, c :: rest =>
      if decide (c ∈ url_link_trailing_punctuation)
          || (c = ')' && decide ((c :: rest).count ')' > (c :: rest).count '(')) then
        stripUrlRevF fuel rest
      else if c = ';' then
        match takeRun isWordChar rest with
        | ([], _) => stripUrlRevF fuel rest
        | (_ :: _, rest2) =>
            match rest2 with
            | [] => stripUrlRevF fuel rest
            | d :: rest3 =>
                if d = '&' then stripUrlRevF fuel rest3
                else stripUrlRevF fuel rest
      else some (c :: rest)

/-- The url/file strip loop on the match. -/
def stripUrl (l : List Char) : Option (List Char) :=
  (stripUrlRevF l.length l.reverse).map List.reverse

/-- The check `'_' in domain[-1] or (len(domain) > 1 and '_' in
domain[-2])` on the dot-separated domain labels. -/
def underscoreInLastTwo (labels : List (List Char)) : Bool :=
  (labels.reverse.headD []).contains '_'
    || (decide (labels.length > 1) && (labels.reverse.tail.headD []).contains '_')

/-- `match_url_link` (`links.py` lines 142-188). -/
def match_url_link (text : List Char) : Option (List Char) :=
  match url_link_re_match text with
  | none => none
  | some m =>
      if m.branch = .email then stripEmail m.matched
      else if m.branch = .url && underscoreInLastTwo m.domainLabels then none
      else stripUrl m.matched

/-- Whether the final `;` of `url ++ [';']` completes an HTML entity
reference, i.e. whether `re.search(r'&\w+;$', ...)` succeeds: a nonempty
word run before the `;` preceded by `&`. -/
def entityBeforeSemicolon (url : List Char) : Bool :=
  match takeRun isWordChar url.reverse with
  | ([], _) => false
  | (_ :: _, rest2) => decide (rest2.head? = some '&')

theorem stripUrlRevF_fuel_invariant : ∀ (f1 f2 : Nat) (l : List Char),
    l.length ≤ f1 → l.length ≤ f2 → stripUrlRevF f1 l = stripUrlRevF f2 l := by
  intro f1
  induction f1 with
  | zero =>
      intro f2 l h1 h2
      match l with
      | [] => cases f2 <;> rfl
      | c :: rest => simp at h1
  | succ f ih =>
      intro f2 l h1 h2
      match l with
      | [] => cases f2 <;> rfl
      | c :: rest =>
          match f2 with
          | 0 => simp at h2
          | f2' + 1 =>
              have hr1 : rest.length ≤ f := by simp at h1; omega
              have hr2 : rest.length ≤ f2' := by simp at h2; omega
              simp only [stripUrlRevF]
              by_cases hcond : (decide (c ∈ url_link_trailing_punctuation)
                  || (c = ')' && decide ((c :: rest).count ')' > (c :: rest).count '('))) = true
              · rw [if_pos hcond, if_pos hcond]
                exact ih f2' rest hr1 hr2
              · rw [if_neg hcond, if_neg hcond]
                by_cases hsemi : c = ';'
                · rw [if_pos hsemi, if_pos hsemi]
                  rcases htr : takeRun isWordChar rest with ⟨run, rest2⟩
                  have hlen := takeRun_length isWordChar rest
                  rw [htr] at hlen
                  simp only at hlen
                  match run with
                  | [] => exact ih f2' rest hr1 hr2
                  | w :: run' =>
                      match rest2 with
                      | [] => exact ih f2' rest hr1 hr2
                      | d :: rest3 =>
                          show (if d = '&' then stripUrlRevF f rest3 else stripUrlRevF f rest)
                            = (if d = '&' then stripUrlRevF f2' rest3 else stripUrlRevF f2' rest)
                          by_cases hd : d = '&'
                          · rw [if_pos hd, if_pos hd]
                            have h3 : rest3.length ≤ f := by simp at hlen; omega
                            have h4 : rest3.length ≤ f2' := by simp at hlen; omega
                            exact ih f2' rest3 h3 h4
                          · rw [if_neg hd, if_neg hd]
                            exact ih f2' rest hr1 hr2
                · rw [if_neg hsemi, if_neg hsemi]

theorem stripUrlRevF_punct (fuel : Nat) (c : Char) (rest : List Char)
    (hc : c ∈ url_link_trailing_punctuation) :
    stripUrlRevF (fuel + 1) (c :: rest) = stripUrlRevF fuel rest := by
  simp only [stripUrlRevF]
  rw [if_pos (by simp [hc])]

theorem stripUrlRevF_paren (fuel : Nat) (rest : List Char)
    (h : (')' :: rest).count ')' > (')' :: rest).count '(') :
    stripUrlRevF (fuel + 1) (')' :: rest) = stripUrlRevF fuel rest := by
  simp only [stripUrlRevF]
  rw [if_pos]
  rw [decide_eq_true h]
  decide

theorem stripUrlRevF_semi (fuel : Nat) (rest : List Char) :
    stripUrlRevF (fuel + 1) (';' :: rest)
      = (match takeRun isWordChar rest with
        | ([], _) => stripUrlRevF fuel rest
        | (_ :: _, rest2) =>
            match rest2 with
            | [] => stripUrlRevF fuel rest
            | d :: rest3 =>
                if d = '&' then stripUrlRevF fuel rest3
                else stripUrlRevF fuel rest) := rfl

theorem stripUrl_append (url tail : List Char) :
    stripUrl (url ++ tail)
      = (stripUrlRevF (url.length + tail.length) (tail.reverse ++ url.reverse)).map
          List.reverse := by
  unfold stripUrl
  rw [List.reverse_append, List.length_append]

/-- C3: the trailing-punctuation stripping rules of `match_url_link`:
each trailing character in `?!.,:*_~'"` is stripped one at a time, a
trailing `)` is stripped while the string counts more `)` than `(`, a
trailing `;` that closes an HTML entity reference `&\w+;` is stripped
together with the whole entity and otherwise one character at a time; in
particular `match_url_link("www.commonmark.org/a.b.")` drops only the
final period and
`match_url_link("www.google.com/search?q=Markup+(business))")` drops
exactly the one unmatched closing parenthesis. -/
theorem match_url_link_stripping_rules :
    (∀ (url : List Char) (c : Char), c ∈ url_link_trailing_punctuation →
        stripUrl (url ++ [c]) = stripUrl url)
    ∧ (∀ url : List Char,
        (url ++ [')']).count ')' > (url ++ [')']).count '(' →
        stripUrl (url ++ [')']) = stripUrl url)
    ∧ (∀ (url run : List Char), run ≠ [] → (∀ c ∈ run, isWordChar c = true) →
        stripUrl (url ++ '&' :: (run ++ [';'])) = stripUrl url)
    ∧ (∀ url : List Char, entityBeforeSemicolon url = false →
        stripUrl (url ++ [';']) = stripUrl url)
    ∧ match_url_link "www.commonmark.org/a.b.".toList
        = some "www.commonmark.org/a.b".toList
    ∧ match_url_link "www.google.com/search?q=Markup+(business))".toList
        = some "www.google.com/search?q=Markup+(business)".toList := by
  refine ⟨?_, ?_, ?_, ?_, by decide, by decide⟩
  · intro url c hc
    rw [stripUrl_append]
    show (stripUrlRevF (url.length + 1) (c :: url.reverse)).map List.reverse = _
    rw [stripUrlRevF_punct _ _ _ hc]
    rfl
  · intro url hcnt
    rw [stripUrl_append]
    show (stripUrlRevF (url.length + 1) (')' :: url.reverse)).map List.reverse = _
    rw [stripUrlRevF_paren]
    · rfl
    · have e : (')' :: url.reverse) = (url ++ [')']).reverse := by simp
      rw [e, List.count_reverse, List.count_reverse]
      exact hcnt
  · intro url run hne hword
    have he : url ++ '&' :: (run ++ [';']) = url ++ (('&' :: run) ++ [';']) := by simp
    rw [he, stripUrl_append]
    have hrev : (('&' :: run) ++ [';']).reverse = ';' :: (run.reverse ++ ['&']) := by simp
    rw [hrev]
    have hlen : (('&' :: run) ++ [';']).length = run.length + 2 := by simp
    rw [hlen]
    show (stripUrlRevF (url.length + (run.length + 1) + 1)
        (';' :: ((run.reverse ++ ['&']) ++ url.reverse))).map List.reverse = _
    rw [stripUrlRevF_semi]
    have htr : takeRun isWordChar ((run.reverse ++ ['&']) ++ url.reverse)
        = (run.reverse, '&' :: url.reverse) := by
      rw [List.append_assoc]
      exact takeRun_all_stop isWordChar run.reverse ('&' :: url.reverse)
        (fun c hcm => hword c (List.mem_reverse.mp hcm))
        (by intro h hh; simp at hh; subst hh; rfl)
    rw [htr]
    rcases hrr : run.reverse with _ | ⟨w, rr⟩
    · exact absurd (by simpa using congrArg List.reverse hrr) hne
    · show (if '&' = '&' then stripUrlRevF (url.length + (run.length + 1)) url.reverse
          else stripUrlRevF (url.length + (run.length + 1)) url.reverse).map List.reverse = _
      rw [if_pos rfl]
      rw [stripUrlRevF_fuel_invariant (url.length + (run.length + 1)) url.length url.reverse
          (by simp only [List.length_reverse]; omega) (by simp)]
      rfl
  · intro url hent
    rw [stripUrl_append]
    show (stripUrlRevF (url.length + 1) (';' :: url.reverse)).map List.reverse = _
    rw [stripUrlRevF_semi]
    unfold entityBeforeSemicolon at hent
    rcases htr : takeRun isWordChar url.reverse with ⟨run, rest2⟩
    rw [htr] at hent
    match run with
    | [] => rfl
    | w :: run' =>
        match rest2 with
        | [] => rfl
        | d :: rest3 =>
            show (if d = '&' then stripUrlRevF url.length rest3
                else stripUrlRevF url.length url.reverse).map List.reverse = _
            have hd : d ≠ '&' := by
              intro hdeq
              rw [hdeq] at hent
              simp at hent
            rw [if_neg hd]
            rfl

/-- Witness for C3 at concrete inputs: one trailing `!` stripped, one
unmatched `)` stripped, a whole `&amp;` entity stripped, and a lone `;`
after a non-entity `&` stripped by itself. -/
theorem match_url_link_stripping_rules_witness :
    stripUrl ("www.x.org/a".toList ++ ['!']) = stripUrl "www.x.org/a".toList
    ∧ stripUrl ("x(y)".toList ++ [')']) = stripUrl "x(y)".toList
    ∧ stripUrl ("www.x.org/foo".toList ++ '&' :: ("amp".toList ++ [';']))
        = stripUrl "www.x.org/foo".toList
    ∧ stripUrl ("www.x.org/foo&".toList ++ [';']) = stripUrl "www.x.org/foo&".toList :=
  ⟨match_url_link_stripping_rules.1 _ '!' (by decide),
   match_url_link_stripping_rules.2.1 _ (by decide),
   match_url_link_stripping_rules.2.2.1 _ "amp".toList (by decide) (by decide),
   match_url_link_stripping_rules.2.2.2.1 _ (by decide)⟩

/-- C7: `match_url_link` returns `None` whenever the regex does not
match; whenever the matched form is a url (`www.`/`scheme://`) and an
underscore occurs in one of the last two dot-separated domain labels;
and otherwise it returns exactly the result of the stripping loop, which
is `None` precisely when stripping consumed the entire matched string
(for example a string of pure trailing punctuation strips to `None`). -/
theorem match_url_link_none_conditions :
    (∀ text : List Char, url_link_re_match text = none → match_url_link text = none)
    ∧ (∀ (text : List Char) (m : UrlLinkMatch), url_link_re_match text = some m →
        m.branch = .url → underscoreInLastTwo m.domainLabels = true →
        match_url_link text = none)
    ∧ (∀ (text : List Char) (m : UrlLinkMatch), url_link_re_match text = some m →
        m.branch = .email → match_url_link text = stripEmail m.matched)
    ∧ (∀ (text : List Char) (m : UrlLinkMatch), url_link_re_match text = some m →
        m.branch ≠ .email → (m.branch = .url → underscoreInLastTwo m.domainLabels = false) →
        match_url_link text = stripUrl m.matched)
    ∧ (∀ l : List Char, l ≠ [] →
        (∀ c ∈ l, c ∈ url_link_trailing_punctuation) → stripUrl l = none) := by
  refine ⟨?_, ?_, ?_, ?_, ?_⟩
  · intro text h
    unfold match_url_link
    rw [h]
  · intro text m hm hb hu
    unfold match_url_link
    rw [hm]
    have hne : ¬(m.branch = MatchBranch.email) := by rw [hb]; intro hc; cases hc
    simp only [if_neg hne]
    rw [if_pos (by rw [hb, hu]; rfl)]
  · intro text m hm hb
    unfold match_url_link
    rw [hm]
    show (if m.branch = MatchBranch.email then stripEmail m.matched
        else if (decide (m.branch = MatchBranch.url) && underscoreInLastTwo m.domainLabels) = true
          then none else stripUrl m.matched) = stripEmail m.matched
    rw [if_pos hb]
  · intro text m hm hb hu
    unfold match_url_link
    rw [hm]
    show (if m.branch = MatchBranch.email then stripEmail m.matched
        else if (decide (m.branch = MatchBranch.url) && underscoreInLastTwo m.domainLabels) = true
          then none else stripUrl m.matched) = stripUrl m.matched
    have hcond : ¬((decide (m.branch = MatchBranch.url) && underscoreInLastTwo m.domainLabels) = true) := by
      intro hcontra
      rw [Bool.and_eq_true, decide_eq_true_eq] at hcontra
      have h2 := hu hcontra.1
      rw [h2] at hcontra
      exact Bool.false_ne_true hcontra.2
    rw [if_neg hb, if_neg hcond]
  · intro l hne hall
    have key : ∀ (fuel : Nat) (x : List Char), x.length ≤ fuel →
        (∀ c ∈ x, c ∈ url_link_trailing_punctuation) →
        stripUrlRevF fuel x = none := by
      intro fuel
      induction fuel with
      | zero => intro x hx _; match x with
                | [] => rfl
                | c :: r => simp at hx
      | succ f ih =>
          intro x hx hall2
          match x with
          | [] => rfl
          | c :: r =>
              rw [stripUrlRevF_punct f c r (hall2 c (by simp))]
              exact ih r (by simp at hx; omega) (fun d hd => hall2 d (by simp [hd]))
    unfold stripUrl
    rw [key l.length l.reverse (by simp)
      (fun c hc => hall c (List.mem_reverse.mp hc))]
    rfl

/-- Witness for C7 at concrete inputs: no match for `"foo"`, an
underscore in the second-to-last domain label of `"www.a_b.c"` rejects
the match, the url branch of `"www.commonmark.org"` passes through the
stripping loop, and a pure-punctuation string strips to `None`. -/
theorem match_url_link_none_conditions_witness :
    match_url_link "foo".toList = none
    ∧ match_url_link "www.a_b.c".toList = none
    ∧ match_url_link "www.commonmark.org".toList
        = stripUrl "www.commonmark.org".toList
    ∧ stripUrl ['.', ','] = none :=
  ⟨match_url_link_none_conditions.1 _ (by decide),
   match_url_link_none_conditions.2.1 "www.a_b.c".toList
     ⟨.url, "www.a_b.c".toList, [['a', '_', 'b'], ['c']]⟩ (by decide) rfl (by decide),
   match_url_link_none_conditions.2.2.2.1 "www.commonmark.org".toList
     ⟨.url, "www.commonmark.org".toList, [['c','o','m','m','o','n','m','a','r','k'], ['o','r','g']]⟩
     (by decide) (by decide) (fun _ => by decide),
   match_url_link_none_conditions.2.2.2.2 ['.', ','] (by decide) (by decide)⟩

/-! `link_type` (`links.py` lines 69-99) and the regexes it consults
(`links.py` lines 9-31). -/

/-- `[A-Za-z]`. -/
def isAsciiAlpha (c : Char) : Bool :=
  ('A' ≤ c && c ≤ 'Z') || ('a' ≤ c && c ≤ 'z')

/-- The scheme-tail class `[\w\+\-\.]` of `is_uri_re`/`is_url_re` and
`is_interwiki_re`. -/
def isSchemeChar (c : Char) : Bool :=
  isWordChar c || c = '+' || c = '-' || c = '.'

/-- `is_url_re` = `^(\w[\w\+\-\.]*)://`: a word character, a maximal
scheme-character run (the class excludes `:`, so backtracking cannot
shorten it), then the literal `://`; returns the captured scheme. -/
def is_url_re_match (s : List Char) : Option (List Char) :=
  match s with
  | [] => none
  | c :: rest =>
      if isWordChar c then
        match takeRun isSchemeChar rest with
        | (r, t) =>
            if t.take 3 = "://".toList then some (c :: r) else none
      else none

/-- `\S+` over a split piece. -/
def allNonSpace (l : List Char) : Bool := l.all (fun c => !isSpaceChar c)

/-- First alternative `mailto:\S+|[^\s:]+` of `is_email_re`. -/
def emailNamePart (pre : List Char) : Bool :=
  (pre.take 7 = "mailto:".toList && decide ((pre.drop 7) ≠ []) && allNonSpace (pre.drop 7))
    || (decide (pre ≠ []) && pre.all (fun c => !isSpaceChar c && c != ':'))

/-- The optional query suffix `(\?.+)?` before `$` (where `.` does not
match a newline). -/
def emailQueryPart (t : List Char) : Bool :=
  match t with
  | [] => true
  | '?' :: rest => decide (rest ≠ []) && rest.all (fun c => c != '\n')
  | _ => false

/-- Tail `\S+\.\w+(\?.+)?$` of `is_email_re` after the `@`: acceptance is
the existence of a decomposition, which is exactly what the backtracking
engine searches for.  `j` positions the literal `.`, `k` the end of the
`\w+` run. -/
def emailDomainPart (post : List Char) : Bool :=
  (List.range (post.length + 1)).any (fun j =>
    match post.drop j with
    | '.' :: tail =>
        decide (1 ≤ j) && allNonSpace (post.take j)
          && (List.range (tail.length + 1)).any (fun k =>
              decide (1 ≤ k) && (tail.take k).all isWordChar
                && emailQueryPart (tail.drop k))
    | _ => false)

/-- `is_email_re` = `^(mailto:\S+|[^\s:]+)\@\S+\.\w+(\?.+)?$` as a
boolean: the `$` anchor also matches just before one final newline; the
match is the existence of an `@`-split with both sides accepted. -/
def is_email_re_matchB (s0 : List Char) : Bool :=
  let s := if s0.getLast? = some '\n' then s0.dropLast else s0
  (List.range (s.length + 1)).any (fun i =>
    match s.drop i with
    | '@' :: post => emailNamePart (s.take i) && emailDomainPart post
    | _ => false)

/-- `is_www_link_re` = `^www\.([\w\-]+\.)+[\w\-]+` as a boolean: after
`www.` the greedy domain scan must find at least two labels. -/
def is_www_link_re_matchB (s : List Char) : Bool :=
  s.take 4 = "www.".toList
    && (match domainScan (s.drop 4) with
        | some (labels, _) => decide (labels.length ≥ 2)
        | none => false)

/-- `is_win32_share_re` = `^(\\\\[^\\]+\\.+|smb://)`: two backslashes, a
nonempty run without backslash (forced maximal since the next pattern
character is a backslash), a backslash, then at least one `.`-matchable
(non-newline) character; or the literal `smb://`. -/
def is_win32_share_re_matchB (s : List Char) : Bool :=
  (match s with
    | '\\' :: '\\' :: rest =>
        match takeRun (fun c => c != '\\') rest with
        | ([], _) => false
        | (_ :: _, t) =>
            match t with
            | '\\' :: b =>
                match b with
                | [] => false
                | hb :: _ => hb != '\n'
            | _ => false
    | _ => false)
  || s.take 6 = "smb://".toList

/-- Scan for `.*[/\\]` after `~`: succeed at the first slash or
backslash, fail at a newline (which `.` cannot cross) or at the end. -/
def tildeScan : List Char → Bool
  | [] => false
  | c :: rest =>
      if c = '/' || c = '\\' then true
      else if c = '\n' then false
      else tildeScan rest

/-- `is_path_re` = `^(/|\.\.?[/\\]|~.*[/\\]|[A-Za-z]:\\)`. -/
def is_path_re_matchB (s : List Char) : Bool :=
  match s with
  | '/' :: _ => true
  | '.' :: rest =>
      (match rest with
        | '/' :: _ => true
        | '\\' :: _ => true
        | '.' :: '/' :: _ => true
        | '.' :: '\\' :: _ => true
        | _ => false)
  | '~' :: rest => tildeScan rest
  | c :: ':' :: '\\' :: _ => isAsciiAlpha c
  | _ => false

/-- `is_interwiki_re` = `^(\w[\w\+\-\.]*)\?(.*)`: a word character, a
maximal scheme-character run (the class excludes `?`), a literal `?`,
then `(.*)` which always matches. -/
def is_interwiki_re_matchB (s : List Char) : Bool :=
  match s with
  | [] => false
  | c :: rest =>
      isWordChar c
        && (match (takeRun isSchemeChar rest).2 with
            | '?' :: _ => true
            | _ => false)

/-- `link_type` (`links.py` lines 69-99): ordered pattern checks. -/
def link_type (link : List Char) : String :=
  match is_url_re_match link with
  | some scheme =>
      if link.take 4 = "zim+".toList then "notebook" else String.mk scheme
  | none =>
      if link.take 6 = "file:/".toList then "file"
      else if is_email_re_matchB link then "mailto"
      else if is_www_link_re_matchB link then "http"
      else if link.contains '@'
          && (link.take 4 = "mid:".toList || link.take 4 = "cid:".toList) then
        String.mk (link.take 3)
      else if is_win32_share_re_matchB link then "smb"
      else if is_path_re_matchB link then "file"
      else if is_interwiki_re_matchB link then "interwiki"
      else "page"

/-- C4: `link_type` classifies by the ordered pattern checks of
`links.py`; in particular `link_type("wp?foo")` is `"interwiki"`,
`link_type("mailto:foo.com")` is `"page"` (no `@`, so not a valid
mailto), and `link_type("\\\\host\\foo\\bar")` is `"smb"`. -/
theorem link_type_examples :
    link_type "wp?foo".toList = "interwiki"
    ∧ link_type "mailto:foo.com".toList = "page"
    ∧ link_type ['\\', '\\', 'h', 'o', 's', 't', '\\', 'f', 'o', 'o', '\\', 'b', 'a', 'r']
        = "smb" := by
  refine ⟨by decide, by decide, by decide⟩

end ZimLinks

namespace ZimRegexParser

/-! Model of `get_line_count` and `RegexParser._raise_exception`
(`zim/parse/regexparser.py`). -/

/-- The line-boundary characters recognised by Python `str.splitlines`. -/
def isLineBreak (c : Char) : Bool :=
  c = '\n' || c = '\r' || c = '\x0b' || c = '\x0c'
    || c = '\x1c' || c = '\x1d' || c = '\x1e' || c = '\x85'
    || c = '\u2028' || c = '\u2029'

/-- `str.splitlines(True)` (keepends), with `acc` the reversed current
line: split after each line break, treating `\r\n` as one break. -/
def splitlinesAux : List Char → List Char → List (List Char)
  | [], acc => if acc.isEmpty then [] else [acc.reverse]
  | '\r' :: '\n' :: rest, acc => (acc.reverse ++ ['\r', '\n']) :: splitlinesAux rest []
  | c :: rest, acc =>
      if isLineBreak c then (acc.reverse ++ [c]) :: splitlinesAux rest []
      else splitlinesAux rest (c :: acc)

def splitlinesKeepends (s : List Char) : List (List Char) := splitlinesAux s []

/-- `get_line_count` (`regexparser.py` lines 46-62): lines count from 1,
columns from 0, offset 0 maps to `(1, 0)`.  `lines[-1]` on an empty line
list (only reachable for a positive offset into an empty text, where
Python raises `IndexError`) is modelled as `(1, 0)`. -/
def get_line_count (text : List Char) (offset : Nat) : Nat × Nat :=
  if offset = 0 then (1, 0)
  else
    let lines := splitlinesKeepends (text.take offset)
    match lines.getLast? with
    | none => (1, 0)
    | some last =>
        if last.getLast? = some '\n' then (lines.length + 1, 0)
        else (lines.length, last.length)

/-- The exception classes relevant to `RegexParser._raise_exception`:
`AssertionError`, `ParserError` carrying the parser annotations the
method sets (`parser_offset` is `none` while the attribute does not exist
yet), and any unrelated exception class.  The `parser_builder` and
`parser_rule` annotations carry no information the claims examine and are
not modelled. -/
inductive PyException where
  | assertionError (msg : String)
  | parserError (msg : String) (parserOffset : Option Nat)
      (parserText : List Char) (parserLineOffset : Nat × Nat)
  | other (name : String)
deriving DecidableEq

/-- `ParserError.__init__`: a fresh parser error has no `parser_offset`
attribute, empty `parser_text` and line offset `(0, 0)`. -/
def mkParserError (msg : String) : PyException :=
  .parserError msg none [] (0, 0)

/-- `RegexParser._raise_exception` (`regexparser.py` lines 190-210),
modelled as the exception it (re-)raises.  An `AssertionError` is first
converted to a fresh `ParserError`; a `ParserError` re-raised through an
outer parser accumulates `parser_offset`; any other class is re-raised
unchanged (`raise` with no argument). -/
def raise_exception (error : PyException) (text : List Char) (start fin : Nat) :
    PyException :=
  match error with
  | .assertionError msg =>
      .parserError msg (some start) ((text.drop start).take (fin - start))
        (get_line_count text start)
  | .parserError msg old snip _ =>
      match old with
      | some o =>
          .parserError msg (some (start + o)) snip (get_line_count text (start + o))
      | none =>
          .parserError msg (some start) ((text.drop start).take (fin - start))
            (get_line_count text start)
  | .other n => .other n

/-- C6: a parser-error-class exception (assertion failures included) is
annotated with the offending line and column computed by
`get_line_count` (lines starting at 1, columns at 0, offset 0 mapping to
`(1, 0)`; a nested parser error accumulates its stored offset) and
re-raised; an exception of an unrelated class propagates unchanged. -/
theorem raise_exception_contract :
    (∀ (msg : String) (text : List Char) (s e : Nat),
        raise_exception (.assertionError msg) text s e
          = .parserError msg (some s) ((text.drop s).take (e - s))
              (get_line_count text s))
    ∧ (∀ (msg : String) (text : List Char) (s e : Nat),
        raise_exception (mkParserError msg) text s e
          = .parserError msg (some s) ((text.drop s).take (e - s))
              (get_line_count text s))
    ∧ (∀ (msg : String) (o : Nat) (snip : List Char) (lo : Nat × Nat)
          (text : List Char) (s e : Nat),
        raise_exception (.parserError msg (some o) snip lo) text s e
          = .parserError msg (some (s + o)) snip (get_line_count text (s + o)))
    ∧ (∀ (n : String) (text : List Char) (s e : Nat),
        raise_exception (.other n) text s e = .other n)
    ∧ (∀ text : List Char, get_line_count text 0 = (1, 0))
    ∧ (∀ (text : List Char) (off : Nat), 1 ≤ (get_line_count text off).1) := by
  refine ⟨fun _ _ _ _ => rfl, fun _ _ _ _ => rfl, fun _ _ _ _ _ _ _ => rfl,
    fun _ _ _ _ => rfl, fun _ => rfl, ?_⟩
  intro text off
  unfold get_line_count
  by_cases h0 : off = 0
  · rw [if_pos h0]
  · rw [if_neg h0]
    simp only
    generalize splitlinesKeepends (text.take off) = L
    rcases hl : L.getLast? with _ | last
    · exact Nat.le_refl 1
    · have hne : L ≠ [] := by intro h; rw [h] at hl; cases hl
      have hpos : 1 ≤ L.length := List.length_pos.mpr hne
      show 1 ≤ (if last.getLast? = some '\n' then (L.length + 1, 0)
          else (L.length, last.length)).1
      split
      · simp
      · simpa using hpos

end ZimRegexParser

namespace ZimFindObject

/-! Model of `PluginInsertedObjectFindMixin` for simple objects
(`zim/gui/pageview/find.py` lines 409-497). -/

/-- `FindQuery.__eq__` compares `(string, flags)`. -/
abbrev QueryKey := String × Nat

def FIND_HAS_MATCH : Nat := 1
def FIND_HAS_HIGHLIGHT : Nat := 2

/-- The find state of an inserted object whose model does not implement
the Find interface: `_find_match_highlight_state` and
`_find_match_query` (both start at `0`/`None`).  The css classes set by
`_find_set_match_highlight_state` are a pure function of this state and
carry no further information. -/
structure ObjFindState where
  state : Nat
  query : Option QueryKey
deriving DecidableEq

/-- `_find_next_previous` (`find.py` lines 447-467) for a simple object;
`matchFn q` stands for `_find_simple_match(q)`, the search of the query
regex over the object data. -/
def find_next_previous (matchFn : QueryKey → Bool) (st : ObjFindState) (q : QueryKey) :
    Bool × ObjFindState :=
  if st.state &&& FIND_HAS_MATCH ≠ 0 ∧ st.query = some q then
    (false, ⟨st.state ^^^ FIND_HAS_MATCH, some q⟩)
  else if matchFn q then
    if st.state &&& FIND_HAS_HIGHLIGHT ≠ 0 ∧ st.query = some q then
      (true, ⟨FIND_HAS_MATCH ||| FIND_HAS_HIGHLIGHT, some q⟩)
    else
      (true, ⟨FIND_HAS_MATCH, some q⟩)
  else
    (false, ⟨0, none⟩)

theorem find_next_previous_matched_same_query (matchFn : QueryKey → Bool)
    (s : Nat) (q : QueryKey) (h : s &&& FIND_HAS_MATCH ≠ 0) :
    find_next_previous matchFn ⟨s, some q⟩ q
      = (false, ⟨s ^^^ FIND_HAS_MATCH, some q⟩) := by
  unfold find_next_previous
  rw [if_pos ⟨h, rfl⟩]

/-- C5: for a simple embedded object whose data matches the query, two
consecutive `find_next`/`find_previous` calls with the same query toggle:
the first returns `True` and sets the `HAS_MATCH` bit, the second returns
`False` and clears it; a call with a different, non-matching query resets
the match/highlight state to `0`. -/
theorem find_next_previous_toggle :
    (∀ (matchFn : QueryKey → Bool) (st : ObjFindState) (q : QueryKey),
        matchFn q = true →
        ¬(st.state &&& FIND_HAS_MATCH ≠ 0 ∧ st.query = some q) →
        (find_next_previous matchFn st q).1 = true
        ∧ (find_next_previous matchFn st q).2.state &&& FIND_HAS_MATCH ≠ 0
        ∧ (find_next_previous matchFn st q).2.query = some q
        ∧ (find_next_previous matchFn (find_next_previous matchFn st q).2 q).1 = false
        ∧ (find_next_previous matchFn (find_next_previous matchFn st q).2 q).2.state
            &&& FIND_HAS_MATCH = 0)
    ∧ (∀ (matchFn : QueryKey → Bool) (st : ObjFindState) (q : QueryKey),
        st.query ≠ some q → matchFn q = false →
        find_next_previous matchFn st q = (false, ⟨0, none⟩)) := by
  constructor
  · intro matchFn st q hmatch hnot
    unfold find_next_previous
    rw [if_neg hnot, if_pos hmatch]
    by_cases hh : st.state &&& FIND_HAS_HIGHLIGHT ≠ 0 ∧ st.query = some q
    · rw [if_pos hh]
      refine ⟨rfl,
        by show (FIND_HAS_MATCH ||| FIND_HAS_HIGHLIGHT) &&& FIND_HAS_MATCH ≠ 0; decide,
        rfl, ?_, ?_⟩
      · show (find_next_previous matchFn ⟨FIND_HAS_MATCH ||| FIND_HAS_HIGHLIGHT, some q⟩ q).1
            = false
        rw [find_next_previous_matched_same_query matchFn _ q (by decide)]
      · show (find_next_previous matchFn
              ⟨FIND_HAS_MATCH ||| FIND_HAS_HIGHLIGHT, some q⟩ q).2.state
            &&& FIND_HAS_MATCH = 0
        rw [find_next_previous_matched_same_query matchFn _ q (by decide)]
        show ((FIND_HAS_MATCH ||| FIND_HAS_HIGHLIGHT) ^^^ FIND_HAS_MATCH)
            &&& FIND_HAS_MATCH = 0
        decide
    · rw [if_neg hh]
      refine ⟨rfl,
        by show FIND_HAS_MATCH &&& FIND_HAS_MATCH ≠ 0; decide,
        rfl, ?_, ?_⟩
      · show (find_next_previous matchFn ⟨FIND_HAS_MATCH, some q⟩ q).1 = false
        rw [find_next_previous_matched_same_query matchFn _ q (by decide)]
      · show (find_next_previous matchFn ⟨FIND_HAS_MATCH, some q⟩ q).2.state
            &&& FIND_HAS_MATCH = 0
        rw [find_next_previous_matched_same_query matchFn _ q (by decide)]
        show (FIND_HAS_MATCH ^^^ FIND_HAS_MATCH) &&& FIND_HAS_MATCH = 0
        decide
  · intro matchFn st q hq hmatch
    unfold find_next_previous
    rw [if_neg (fun hc => hq hc.2), if_neg (by rw [hmatch]; exact Bool.false_ne_true)]

/-- Witness for C5 at a concrete object and queries. -/
theorem find_next_previous_toggle_witness :
    (find_next_previous (fun _ => true) ⟨0, none⟩ ("text", 0)).1 = true
    ∧ (find_next_previous (fun _ => true)
        (find_next_previous (fun _ => true) ⟨0, none⟩ ("text", 0)).2 ("text", 0)).1 = false
    ∧ find_next_previous (fun _ => false) ⟨2, some ("text", 0)⟩ ("other", 0)
        = (false, ⟨0, none⟩) := by
  have h1 := find_next_previous_toggle.1 (fun _ => true) ⟨0, none⟩ ("text", 0) rfl
    (by intro hc; exact absurd rfl hc.1)
  exact ⟨h1.1, h1.2.2.2.1,
    find_next_previous_toggle.2 (fun _ => false) ⟨2, some ("text", 0)⟩ ("other", 0)
      (by decide) rfl⟩

end ZimFindObject

namespace ZimFindBuffer

/-! Model of `TextBufferFindMixin.find_clear` and
`TextBufferFindMixin.find_replace_all` over a buffer containing text and
inserted objects (`zim/gui/pageview/find.py` lines 152-400 and 409-497).
Buffer positions are character offsets; an object anchor occupies one
position (the `PIXBUF_CHR` placeholder in the searched text). -/

mutual

/-- A `TextBuffer` restricted to its find-relevant state: the content,
the spans carrying the match and highlight tags, and the remembered
`_find_highlight_all_query`.  (Tag spans are data here; the claims below
never consult them across text edits.) -/
inductive Buffer where
  | mk (elems : ElemList) (matchTag : List (Nat × Nat))
      (highlightTag : List (Nat × Nat))
      (highlightQuery : Option ZimFindObject.QueryKey)

/-- The buffer content, one entry per character position. -/
inductive ElemList where
  | nil
  | cons (e : BufElem) (rest : ElemList)

/-- One buffer position: a text character or an object anchor. -/
inductive BufElem where
  | ch (c : Char)
  | obj (a : Anchor)

/-- An inserted object (a `PluginInsertedObjectFindMixin`): a simple
object carrying its two-bit find state, or an object whose model itself
implements the Find interface (a nested text buffer). -/
inductive Anchor where
  | simple (st : ZimFindObject.ObjFindState)
  | nested (buf : Buffer)

end

def Buffer.elems : Buffer → ElemList
  | .mk e _ _ _ => e

def Buffer.matchTag : Buffer → List (Nat × Nat)
  | .mk _ mt _ _ => mt

def Buffer.highlightTag : Buffer → List (Nat × Nat)
  | .mk _ _ ht _ => ht

def Buffer.highlightQuery : Buffer → Option ZimFindObject.QueryKey
  | .mk _ _ _ hq => hq

mutual

/-- `TextBufferFindMixin.find_clear` (`find.py` lines 323-330): remove
the match and highlight tags over the whole buffer, forget the
remembered query, and clear every inserted object. -/
def Buffer.find_clear : Buffer → Buffer
  | .mk elems _ _ _ => .mk (ElemList.clearAll elems) [] [] none

/-- The `for _, anchor in self.list_objectanchors()` loop of
`find_clear`. -/
def ElemList.clearAll : ElemList → ElemList
  | .nil => .nil
  | .cons e rest => .cons (BufElem.clearElem e) (ElemList.clearAll rest)

def BufElem.clearElem : BufElem → BufElem
  | .ch c => .ch c
  | .obj a => .obj (Anchor.clearAnchor a)

/-- `PluginInsertedObjectFindMixin.find_clear` (`find.py` lines
481-485): reset a simple object's state to `0`/`None`, or recurse into a
find-capable model. -/
def Anchor.clearAnchor : Anchor → Anchor
  | .simple _ => .simple ⟨0, none⟩
  | .nested b => .nested (Buffer.find_clear b)

end

mutual

/-- All find state cleared: no tags, no remembered query, every object
cleared (recursively). -/
def Buffer.clearedB : Buffer → Bool
  | .mk elems mt ht hq =>
      mt.isEmpty && ht.isEmpty && hq.isNone && ElemList.clearedB elems

def ElemList.clearedB : ElemList → Bool
  | .nil => true
  | .cons e rest => BufElem.clearedB e && ElemList.clearedB rest

def BufElem.clearedB : BufElem → Bool
  | .ch _ => true
  | .obj a => Anchor.clearedB a

def Anchor.clearedB : Anchor → Bool
  | .simple st => decide (st = ⟨0, none⟩)
  | .nested b => Buffer.clearedB b

end

mutual

theorem Buffer.find_clear_fix (b : Buffer) :
    b.find_clear.find_clear = b.find_clear := by
  match b with
  | .mk elems mt ht hq =>
      simp only [Buffer.find_clear]
      rw [ElemList.clearAll_fix elems]

theorem ElemList.clearAll_fix (l : ElemList) :
    ElemList.clearAll (ElemList.clearAll l) = ElemList.clearAll l := by
  match l with
  | .nil => rfl
  | .cons e rest =>
      simp only [ElemList.clearAll]
      rw [BufElem.clearElem_fix e, ElemList.clearAll_fix rest]

theorem BufElem.clearElem_fix (e : BufElem) :
    BufElem.clearElem (BufElem.clearElem e) = BufElem.clearElem e := by
  match e with
  | .ch c => rfl
  | .obj a =>
      simp only [BufElem.clearElem]
      rw [Anchor.clearAnchor_fix a]

theorem Anchor.clearAnchor_fix (a : Anchor) :
    Anchor.clearAnchor (Anchor.clearAnchor a) = Anchor.clearAnchor a := by
  match a with
  | .simple st => rfl
  | .nested b =>
      simp only [Anchor.clearAnchor]
      rw [Buffer.find_clear_fix b]

end

mutual

theorem Buffer.find_clear_cleared (b : Buffer) :
    b.find_clear.clearedB = true := by
  match b with
  | .mk elems mt ht hq =>
      simp only [Buffer.find_clear, Buffer.clearedB]
      rw [ElemList.clearAll_cleared elems]
      rfl

theorem ElemList.clearAll_cleared (l : ElemList) :
    ElemList.clearedB (ElemList.clearAll l) = true := by
  match l with
  | .nil => rfl
  | .cons e rest =>
      simp only [ElemList.clearAll, ElemList.clearedB]
      rw [BufElem.clearElem_cleared e, ElemList.clearAll_cleared rest]
      rfl

theorem BufElem.clearElem_cleared (e : BufElem) :
    BufElem.clearedB (BufElem.clearElem e) = true := by
  match e with
  | .ch c => rfl
  | .obj a =>
      simp only [BufElem.clearElem, BufElem.clearedB]
      exact Anchor.clearAnchor_cleared a

theorem Anchor.clearAnchor_cleared (a : Anchor) :
    Anchor.clearedB (Anchor.clearAnchor a) = true := by
  match a with
  | .simple st => rfl
  | .nested b =>
      simp only [Anchor.clearAnchor, Anchor.clearedB]
      exact Buffer.find_clear_cleared b

end

mutual

theorem Buffer.sizeOf_find_clear_le (b : Buffer) : sizeOf b.find_clear ≤ sizeOf b := by
  match b with
  | .mk elems mt ht hq =>
      simp only [Buffer.find_clear]
      have h := ElemList.sizeOf_clearAll_le elems
      have hmt : 1 ≤ sizeOf mt := by cases mt <;> simp_arith
      have hht : 1 ≤ sizeOf ht := by cases ht <;> simp_arith
      have hhq : 1 ≤ sizeOf hq := by cases hq <;> simp_arith
      have he1 : sizeOf ([] : List (Nat × Nat)) = 1 := rfl
      have he2 : sizeOf (none : Option ZimFindObject.QueryKey) = 1 := rfl
      simp only [Buffer.mk.sizeOf_spec]
      omega

theorem ElemList.sizeOf_clearAll_le (l : ElemList) :
    sizeOf (ElemList.clearAll l) ≤ sizeOf l := by
  match l with
  | .nil => exact Nat.le_refl _
  | .cons e rest =>
      simp only [ElemList.clearAll, ElemList.cons.sizeOf_spec]
      have h1 := BufElem.sizeOf_clearElem_le e
      have h2 := ElemList.sizeOf_clearAll_le rest
      omega

theorem BufElem.sizeOf_clearElem_le (e : BufElem) :
    sizeOf (BufElem.clearElem e) ≤ sizeOf e := by
  match e with
  | .ch c => exact Nat.le_refl _
  | .obj a =>
      simp only [BufElem.clearElem, BufElem.obj.sizeOf_spec]
      have h := Anchor.sizeOf_clearAnchor_le a
      omega

theorem Anchor.sizeOf_clearAnchor_le (a : Anchor) :
    sizeOf (Anchor.clearAnchor a) ≤ sizeOf a := by
  match a with
  | .simple st =>
      simp only [Anchor.clearAnchor, Anchor.simple.sizeOf_spec]
      match st with
      | ⟨s, qq⟩ =>
          have : 1 ≤ sizeOf qq := by cases qq <;> simp
          simp
          omega
  | .nested b =>
      simp only [Anchor.clearAnchor, Anchor.nested.sizeOf_spec]
      have h := Buffer.sizeOf_find_clear_le b
      omega

end

/-- C9: `find_clear` is idempotent on every buffer state, embedded
objects (simple or nested find-capable) included: a second call leaves
the state of the first call unchanged, and one call already removes both
tags buffer-wide, forgets the remembered highlight query, and clears
every embedded object's find state recursively. -/
theorem find_clear_idempotent :
    (∀ b : Buffer, b.find_clear.find_clear = b.find_clear)
    ∧ (∀ b : Buffer, b.find_clear.clearedB = true) :=
  ⟨Buffer.find_clear_fix, Buffer.find_clear_cleared⟩

/-! `find_replace_all` (`find.py` lines 368-400). -/

def FIND_REGEX : Nat := 4

/-- A find query as consumed by `find_replace_all`: its identity
`(string, flags)` (`FindQuery.__eq__`), the behaviour of the compiled
regex abstracted as the list of non-overlapping spans
`regex.finditer(segment)` yields on a text segment, and the template
expansion `match.expand` abstracted as a function of the matched text and
the template. -/
structure Query where
  key : ZimFindObject.QueryKey
  finditer : List Char → List (Nat × Nat)
  expandRepl : List Char → List Char → List Char

/-- The primitive buffer operations `find_replace_all` performs, in
order: the user-action bracket and the delete/insert pairs. -/
inductive BufOp where
  | beginUserAction
  | endUserAction
  | delete (startOff endOff : Nat)
  | insert (off : Nat) (text : List Char)
deriving DecidableEq

def ElemList.toList : ElemList → List BufElem
  | .nil => []
  | .cons e rest => e :: rest.toList

def ElemList.ofList : List BufElem → ElemList
  | [] => .nil
  | e :: rest => .cons e (ofList rest)

/-- `TextBufferFindMixin._find_clear_on_new_query` (`find.py` lines
240-245): a remembered highlight query that is truthy (`FindQuery`
truthiness is nonemptiness of its string) and differs from the new query
triggers a full `find_clear`; otherwise only the match tag is removed. -/
def Buffer.findClearOnNewQuery : Buffer → ZimFindObject.QueryKey → Buffer
  | .mk elems mt ht hq, key =>
      let hqTruthy : Bool :=
        match hq with
        | some (s, _) => decide (s ≠ "")
        | none => false
      if hqTruthy && !decide (hq = some key) then
        (Buffer.mk elems mt ht hq).find_clear
      else
        Buffer.mk elems [] ht hq

theorem Buffer.sizeOf_fcnq_elems_lt (b : Buffer) (k : ZimFindObject.QueryKey) :
    sizeOf (b.findClearOnNewQuery k).elems < sizeOf b := by
  match b with
  | .mk elems mt ht hq =>
      have hmk : sizeOf elems < sizeOf (Buffer.mk elems mt ht hq) := by
        simp only [Buffer.mk.sizeOf_spec]
        omega
      simp only [Buffer.findClearOnNewQuery]
      split
      · show sizeOf (ElemList.clearAll elems) < _
        have h := ElemList.sizeOf_clearAll_le elems
        omega
      · show sizeOf elems < _
        exact hmk

/-- `text.delete(start, end)` on offsets. -/
def deleteRange (l : List α) (s e : Nat) : List α := l.take s ++ l.drop e

/-- `text.insert(offset, string)`. -/
def insertAt (l : List α) (s : Nat) (r : List α) : List α := l.take s ++ r ++ l.drop s

/-- One loop body of the replacement phase: `delete(start, end)` followed
by `insert(start, replacement)`. -/
def replaceOne (l : List α) (m : Nat × Nat × List α) : List α :=
  insertAt (deleteRange l m.1 m.2.1) m.1 m.2.2

/-- A replacement match with its text payload converted to buffer
elements. -/
def chMatch (m : Nat × Nat × List Char) : Nat × Nat × List BufElem :=
  (m.1, m.2.1, m.2.2.map BufElem.ch)

/-- The matches of one closed text segment beginning at buffer offset
`segStart`: the `finditer` spans shifted to buffer offsets, each carrying
`my_replacement` (template-expanded only under `FIND_REGEX`). -/
def segMatches (q : Query) (repl : List Char) (segStart : Nat) (seg : List Char) :
    List (Nat × Nat × List Char) :=
  (q.finditer seg).map (fun m =>
    (segStart + m.1, segStart + m.2,
      if q.key.2 &&& FIND_REGEX ≠ 0 then
        q.expandRepl ((seg.drop m.1).take (m.2 - m.1)) repl
      else repl))

mutual

/-- The match-collection loop of `find_replace_all`
(`for mstart, mend, match in self._find_all_in_range(...)`, `find.py`
lines 374-387), walking `_find_all_in_range` directly over the content:
`acc` holds the reversed characters of the current text segment, which
began at offset `accStart`; an object closes the segment (the regex is
run per segment, bounded by the object positions) and gets
`find_replace_all` delegated, its return value discarded; text matches
are collected as `(start offset, end offset, my_replacement)`. -/
def ElemList.replaceAllWalk (el : ElemList) (q : Query) (repl : List Char)
    (accStart : Nat) (acc : List Char) :
    ElemList × List (Nat × Nat × List Char) :=
  match el with
  | .nil => (.nil, segMatches q repl accStart acc.reverse)
  | .cons (.ch c) rest =>
      let w := rest.replaceAllWalk q repl accStart (c :: acc)
      (.cons (.ch c) w.1, w.2)
  | .cons (.obj a) rest =>
      let a' : Anchor :=
        match a with
        | .simple st => .simple st
        | .nested b => .nested (b.find_replace_all q repl).1
      let here := segMatches q repl accStart acc.reverse
      let w := rest.replaceAllWalk q repl (accStart + acc.reverse.length + 1) []
      (.cons (.obj a') w.1, here ++ w.2)
termination_by sizeOf el
decreasing_by
  · simp only [ElemList.cons.sizeOf_spec]
    omega
  · have h1 : sizeOf b < sizeOf (Anchor.nested b) := by
      simp only [Anchor.nested.sizeOf_spec]; omega
    have h2 : sizeOf (Anchor.nested b) < sizeOf (BufElem.obj (Anchor.nested b)) := by
      simp only [BufElem.obj.sizeOf_spec]; omega
    simp only [ElemList.cons.sizeOf_spec]
    omega
  · simp only [ElemList.cons.sizeOf_spec]
    omega

/-- `TextBufferFindMixin.find_replace_all` (`find.py` lines 368-400):
clear on a new query, collect the complete snapshot of matches (objects
delegated during the scan), reverse it, and apply delete/insert pairs
inside a single `begin_user_action`/`end_user_action` group; returns
whether the match list was nonempty, with the buffer operations emitted
on this buffer as a trace. -/
def Buffer.find_replace_all (b : Buffer) (q : Query) (repl : List Char) :
    Buffer × Bool × List BufOp :=
  let b1 := b.findClearOnNewQuery q.key
  let w := b1.elems.replaceAllWalk q repl 0 []
  let finalElems := (w.2.map chMatch).reverse.foldl replaceOne w.1.toList
  let trace := BufOp.beginUserAction ::
    (w.2.reverse.flatMap (fun m => [BufOp.delete m.1 m.2.1, BufOp.insert m.1 m.2.2])
      ++ [BufOp.endUserAction])
  (Buffer.mk (ElemList.ofList finalElems) b1.matchTag b1.highlightTag b1.highlightQuery,
    decide (w.2.length > 0), trace)
termination_by sizeOf b
decreasing_by
  exact Buffer.sizeOf_fcnq_elems_lt b q.key

end

/-- Ascending chain of non-overlapping spans between `lo` and `n`: what
`finditer` guarantees for the sequence of matches it yields on a text of
length `n`. -/
def SpanChain (lo n : Nat) : List (Nat × Nat) → Prop
  | [] => True
  | (s, e) :: rest => lo ≤ s ∧ s ≤ e ∧ e ≤ n ∧ SpanChain e n rest

/-- Span validity of a snapshot of matches with replacements. -/
def MatchesValid (lo n : Nat) (ms : List (Nat × Nat × List α)) : Prop :=
  SpanChain lo n (ms.map (fun m => (m.1, m.2.1)))

/-- The abstracted `finditer` behaves like a regex scan: spans ascending,
non-overlapping and within the text. -/
def MatcherValid (q : Query) : Prop :=
  ∀ text : List Char, SpanChain 0 text.length (q.finditer text)

theorem spanChain_mono {lo n lo' n' : Nat} {sp : List (Nat × Nat)}
    (hlo : lo' ≤ lo) (hn : n ≤ n') (h : SpanChain lo n sp) : SpanChain lo' n' sp := by
  match sp with
  | [] => trivial
  | (s, e) :: rest =>
      obtain ⟨h1, h2, h3, h4⟩ := h
      exact ⟨Nat.le_trans hlo h1, h2, Nat.le_trans h3 hn,
        spanChain_mono (Nat.le_refl e) hn h4⟩

theorem spanChain_append {lo k n : Nat} {A B : List (Nat × Nat)}
    (hA : SpanChain lo k A) (hB : SpanChain k n B) (hlk : lo ≤ k) (hkn : k ≤ n) :
    SpanChain lo n (A ++ B) := by
  match A with
  | [] => exact spanChain_mono hlk (Nat.le_refl n) hB
  | (s, e) :: rest =>
      obtain ⟨h1, h2, h3, h4⟩ := hA
      exact ⟨h1, h2, Nat.le_trans h3 hkn, spanChain_append h4 hB h3 hkn⟩

theorem spanChain_lower {lo n : Nat} {sp : List (Nat × Nat)}
    (h : SpanChain lo n sp) : ∀ p ∈ sp, lo ≤ p.1 ∧ p.1 ≤ p.2 ∧ p.2 ≤ n := by
  match sp with
  | [] => intro p hp; cases hp
  | (s, e) :: rest =>
      obtain ⟨h1, h2, h3, h4⟩ := h
      intro p hp
      cases hp with
      | head => exact ⟨h1, h2, h3⟩
      | tail _ hp =>
          have := spanChain_lower h4 p hp
          exact ⟨Nat.le_trans (Nat.le_trans h1 h2) this.1, this.2⟩

/-- Offset shift of a match, as seen from a suffix of the buffer. -/
def shiftMatch (k : Nat) (m : Nat × Nat × List α) : Nat × Nat × List α :=
  (m.1 - k, m.2.1 - k, m.2.2)

theorem replaceOne_append (C Y : List α) (s e : Nat) (r : List α)
    (hs : C.length ≤ s) (hse : s ≤ e) :
    replaceOne (C ++ Y) (s, e, r) = C ++ replaceOne Y (s - C.length, e - C.length, r) := by
  have hce : C.length ≤ e := Nat.le_trans hs hse
  have hdel : deleteRange (C ++ Y) s e = C ++ deleteRange Y (s - C.length) (e - C.length) := by
    unfold deleteRange
    rw [List.take_append_eq_append_take, List.drop_append_eq_append_drop,
      List.take_of_length_le hs, List.drop_eq_nil_of_le hce]
    simp
  show insertAt (deleteRange (C ++ Y) s e) s r = _
  rw [hdel]
  unfold insertAt
  rw [List.take_append_eq_append_take, List.drop_append_eq_append_drop,
    List.take_of_length_le hs, List.drop_eq_nil_of_le hs]
  simp [replaceOne, insertAt]

theorem replaceOne_at_boundary (C R : List α) (s : Nat) (r : List α)
    (hs : s ≤ C.length) :
    replaceOne (C ++ R) (s, C.length, r) = C.take s ++ r ++ R := by
  have hdel : deleteRange (C ++ R) s C.length = C.take s ++ R := by
    unfold deleteRange
    rw [List.take_append_eq_append_take, List.drop_append_eq_append_drop,
      Nat.sub_self, List.drop_length]
    simp [Nat.sub_eq_zero_of_le hs]
  show insertAt (deleteRange (C ++ R) s C.length) s r = _
  rw [hdel]
  unfold insertAt
  have hlen : (C.take s).length = s := by
    rw [List.length_take]
    exact Nat.min_eq_left hs
  have hdrop : List.drop s (List.take s C) = [] :=
    List.drop_eq_nil_of_le (Nat.le_of_eq hlen)
  have htake : List.take s (List.take s C) = List.take s C := by
    rw [List.take_take, Nat.min_self]
  rw [List.take_append_eq_append_take, List.drop_append_eq_append_drop, hlen,
    Nat.sub_self, htake, hdrop]
  simp

theorem foldl_replaceOne_shift (ms : List (Nat × Nat × List α)) (C X : List α)
    (h : ∀ m ∈ ms, C.length ≤ m.1 ∧ m.1 ≤ m.2.1) :
    ms.foldl replaceOne (C ++ X)
      = C ++ (ms.map (shiftMatch C.length)).foldl replaceOne X := by
  match ms with
  | [] => rfl
  | m :: tail =>
      obtain ⟨hm1, hm2⟩ := h m (by simp)
      show tail.foldl replaceOne (replaceOne (C ++ X) m) = _
      have : replaceOne (C ++ X) m = replaceOne (C ++ X) (m.1, m.2.1, m.2.2) := rfl
      rw [this, replaceOne_append C X m.1 m.2.1 m.2.2 hm1 hm2,
        foldl_replaceOne_shift tail C _ (fun m' hm' => h m' (by simp [hm']))]
      rfl

/-- Simultaneous application of an ascending snapshot of matches, the
offsets interpreted against the original buffer: each matched span is
replaced, everything between is kept.  `base` is the original offset of
the head of `l`. -/
def spliceFrom (base : Nat) (l : List α) : List (Nat × Nat × List α) → List α
  | [] => l
  | (s, e, r) :: ms => l.take (s - base) ++ r ++ spliceFrom e (l.drop (e - base)) ms

/-- Applying an ascending, non-overlapping snapshot of matches in
reverse order, one `delete`+`insert` at a time, produces the simultaneous
replacement of all of them: the offsets of not-yet-applied matches stay
valid because only positions at or beyond each applied offset have been
touched. -/
theorem foldl_replaceOne_reverse_eq_spliceFrom (ms : List (Nat × Nat × List α))
    (base : Nat) (l : List α) (h : MatchesValid base (base + l.length) ms) :
    (ms.map (shiftMatch base)).reverse.foldl replaceOne l = spliceFrom base l ms := by
  match ms with
  | [] => rfl
  | (s, e, r) :: tail =>
      obtain ⟨hbs, hse, hen, hchain⟩ := h
      simp only at hbs hse hen hchain
      have hbe : base ≤ e := Nat.le_trans hbs hse
      have heb : e - base ≤ l.length := by omega
      -- decompose l at the end of the head match
      have hsplit : l = l.take (e - base) ++ l.drop (e - base) :=
        (List.take_append_drop (e - base) l).symm
      have hC : (l.take (e - base)).length = e - base := by
        rw [List.length_take]
        exact Nat.min_eq_left heb
      -- the tail matches all start at or after `e`
      have htail : ∀ m ∈ tail.map (shiftMatch base),
          (l.take (e - base)).length ≤ m.1 ∧ m.1 ≤ m.2.1 := by
        intro m hm
        rw [List.mem_map] at hm
        obtain ⟨m0, hm0, rfl⟩ := hm
        have hlow := spanChain_lower hchain (m0.1, m0.2.1)
          (by rw [List.mem_map]; exact ⟨m0, hm0, rfl⟩)
        simp only at hlow
        constructor
        · rw [hC]; show e - base ≤ m0.1 - base; omega
        · show m0.1 - base ≤ m0.2.1 - base
          have := hlow.2.1
          omega
      show ((shiftMatch base (s, e, r) :: tail.map (shiftMatch base)).reverse).foldl
          replaceOne l = _
      rw [List.reverse_cons, List.foldl_append]
      conv_lhs =>
        rw [hsplit]
      rw [foldl_replaceOne_shift ((tail.map (shiftMatch base)).reverse) _ _
        (fun m hm => htail m (List.mem_reverse.mp hm))]
      -- compose the two shifts on the tail matches
      have hcomp : (((tail.map (shiftMatch base)).reverse).map
            (shiftMatch (l.take (e - base)).length))
          = (tail.map (shiftMatch e)).reverse := by
        rw [List.map_reverse, List.map_map]
        refine congrArg List.reverse (List.map_congr_left ?_)
        intro m0 hm0
        obtain ⟨m1, m2, mr⟩ := m0
        have hlow := spanChain_lower hchain (m1, m2)
          (by rw [List.mem_map]; exact ⟨(m1, m2, mr), hm0, rfl⟩)
        simp only at hlow
        have he1 : e ≤ m1 := hlow.1
        have he2 : m1 ≤ m2 := hlow.2.1
        show shiftMatch (l.take (e - base)).length (shiftMatch base (m1, m2, mr))
            = shiftMatch e (m1, m2, mr)
        rw [hC]
        show ((m1 - base) - (e - base), (m2 - base) - (e - base), mr)
            = (m1 - e, m2 - e, mr)
        have h1 : m1 - base - (e - base) = m1 - e := by omega
        have h2 : m2 - base - (e - base) = m2 - e := by omega
        rw [h1, h2]
      rw [hcomp]
      -- apply the induction hypothesis on the suffix
      have hvalid : MatchesValid e (e + (l.drop (e - base)).length) tail := by
        have hlen : e + (l.drop (e - base)).length = base + l.length := by
          rw [List.length_drop]
          omega
        unfold MatchesValid
        rw [hlen]
        exact hchain
      rw [foldl_replaceOne_reverse_eq_spliceFrom tail e (l.drop (e - base)) hvalid]
      -- finally apply the head replacement at the boundary
      show List.foldl replaceOne _ [shiftMatch base (s, e, r)] = _
      simp only [List.foldl_cons, List.foldl_nil]
      have hrw : shiftMatch base (s, e, r) = (s - base, e - base, r) := rfl
      rw [hrw]
      conv_lhs =>
        rw [show ((s - base : Nat), (e - base : Nat), r)
            = ((s - base : Nat), (l.take (e - base)).length, r) from by rw [hC]]
      rw [replaceOne_at_boundary (l.take (e - base)) _ (s - base) r
        (by rw [hC]; omega)]
      rw [List.take_take]
      have hmin : min (s - base) (e - base) = s - base := Nat.min_eq_left (by omega)
      rw [hmin]
      rfl

theorem ElemList.toList_ofList (l : List BufElem) : (ElemList.ofList l).toList = l := by
  match l with
  | [] => rfl
  | e :: rest =>
      show e :: (ElemList.ofList rest).toList = e :: rest
      rw [ElemList.toList_ofList rest]

theorem shiftMatch_zero (m : Nat × Nat × List α) : shiftMatch 0 m = m := by
  obtain ⟨m1, m2, mr⟩ := m
  simp [shiftMatch]

theorem matchesValid_chMatch {lo n : Nat} {ms : List (Nat × Nat × List Char)}
    (h : MatchesValid lo n ms) : MatchesValid lo n (ms.map chMatch) := by
  unfold MatchesValid at h ⊢
  rw [List.map_map]
  have : ((fun m => (m.1, m.2.1)) ∘ chMatch)
      = (fun (m : Nat × Nat × List Char) => (m.1, m.2.1)) := rfl
  rw [this]
  exact h

theorem spanChain_shift_general (k n lo : Nat) (sp : List (Nat × Nat))
    (h : SpanChain lo n sp) :
    SpanChain (k + lo) (k + n) (sp.map (fun p => (k + p.1, k + p.2))) := by
  match sp with
  | [] => trivial
  | (s, e) :: rest =>
      obtain ⟨h1, h2, h3, h4⟩ := h
      exact ⟨by omega, by omega, by omega, spanChain_shift_general k n e rest h4⟩

theorem spanChain_shift {n : Nat} {sp : List (Nat × Nat)} (k : Nat)
    (h : SpanChain 0 n sp) :
    SpanChain k (k + n) (sp.map (fun p => (k + p.1, k + p.2))) := by
  have := spanChain_shift_general k n 0 sp h
  simpa using this

theorem segMatches_valid (q : Query) (repl : List Char) (hq : MatcherValid q)
    (segStart : Nat) (seg : List Char) :
    MatchesValid segStart (segStart + seg.length) (segMatches q repl segStart seg) := by
  unfold MatchesValid segMatches
  rw [List.map_map]
  have heq : ((fun (m : Nat × Nat × List Char) => (m.1, m.2.1)) ∘ (fun m =>
        ((segStart + m.1, segStart + m.2,
          if q.key.2 &&& FIND_REGEX ≠ 0 then
            q.expandRepl ((seg.drop m.1).take (m.2 - m.1)) repl
          else repl) : Nat × Nat × List Char)))
      = (fun (p : Nat × Nat) => (segStart + p.1, segStart + p.2)) := rfl
  rw [heq]
  exact spanChain_shift segStart (hq seg)

theorem replaceAllWalk_toList_length (q : Query) (repl : List Char)
    (el : ElemList) (accStart : Nat) (acc : List Char) :
    ((el.replaceAllWalk q repl accStart acc).1).toList.length = el.toList.length := by
  match el with
  | .nil => simp [ElemList.replaceAllWalk]
  | .cons (.ch c) rest =>
      simp only [ElemList.replaceAllWalk]
      simp only [ElemList.toList, List.length_cons]
      rw [replaceAllWalk_toList_length q repl rest accStart (c :: acc)]
  | .cons (.obj (.simple st)) rest =>
      simp only [ElemList.replaceAllWalk]
      simp only [ElemList.toList, List.length_cons]
      rw [replaceAllWalk_toList_length q repl rest (accStart + acc.reverse.length + 1) []]
  | .cons (.obj (.nested b)) rest =>
      simp only [ElemList.replaceAllWalk]
      simp only [ElemList.toList, List.length_cons]
      rw [replaceAllWalk_toList_length q repl rest (accStart + acc.reverse.length + 1) []]

theorem matchesValid_append {lo k n : Nat} {A B : List (Nat × Nat × List α)}
    (hA : MatchesValid lo k A) (hB : MatchesValid k n B) (hlk : lo ≤ k) (hkn : k ≤ n) :
    MatchesValid lo n (A ++ B) := by
  unfold MatchesValid at hA hB ⊢
  rw [List.map_append]
  exact spanChain_append hA hB hlk hkn

theorem matchesValid_mono {lo n lo' n' : Nat} {ms : List (Nat × Nat × List α)}
    (hlo : lo' ≤ lo) (hn : n ≤ n') (h : MatchesValid lo n ms) :
    MatchesValid lo' n' ms :=
  spanChain_mono hlo hn h

theorem matchesValid_congr_n {lo n n' : Nat} {ms : List (Nat × Nat × List α)}
    (hn : n = n') (h : MatchesValid lo n ms) : MatchesValid lo n' ms := hn ▸ h

mutual

theorem replaceAllWalk_matches_valid (q : Query) (repl : List Char)
    (hq : MatcherValid q) (el : ElemList) (accStart : Nat) (acc : List Char) :
    MatchesValid accStart (accStart + acc.length + el.toList.length)
      ((el.replaceAllWalk q repl accStart acc).2) := by
  match el with
  | .nil =>
      simp only [ElemList.replaceAllWalk]
      have h := segMatches_valid q repl hq accStart acc.reverse
      refine matchesValid_congr_n ?_ h
      simp [ElemList.toList]
  | .cons (.ch c) rest =>
      simp only [ElemList.replaceAllWalk]
      have h := replaceAllWalk_matches_valid q repl hq rest accStart (c :: acc)
      refine matchesValid_congr_n ?_ h
      simp [ElemList.toList]
      omega
  | .cons (.obj (.simple st)) rest =>
      simp only [ElemList.replaceAllWalk]
      exact replaceAllWalk_obj_core q repl hq rest accStart acc
        ((ElemList.cons (BufElem.obj (Anchor.simple st)) rest).toList.length)
        (by simp [ElemList.toList])
  | .cons (.obj (.nested b)) rest =>
      simp only [ElemList.replaceAllWalk]
      exact replaceAllWalk_obj_core q repl hq rest accStart acc
        ((ElemList.cons (BufElem.obj (Anchor.nested b)) rest).toList.length)
        (by simp [ElemList.toList])

theorem replaceAllWalk_obj_core (q : Query) (repl : List Char)
    (hq : MatcherValid q) (rest : ElemList) (accStart : Nat) (acc : List Char)
    (len : Nat) (hlen : len = rest.toList.length + 1) :
    MatchesValid accStart (accStart + acc.length + len)
      (segMatches q repl accStart acc.reverse
        ++ (rest.replaceAllWalk q repl (accStart + acc.reverse.length + 1) []).2) := by
  have hhere := segMatches_valid q repl hq accStart acc.reverse
  have hrest := replaceAllWalk_matches_valid q repl hq rest
    (accStart + acc.reverse.length + 1) []
  have hrest' : MatchesValid (accStart + acc.length)
      (accStart + acc.length + len)
      ((rest.replaceAllWalk q repl (accStart + acc.reverse.length + 1) []).2) := by
    refine matchesValid_mono (by simp) (Nat.le_refl _)
      (matchesValid_congr_n ?_ hrest)
    simp [hlen]
    omega
  have hhere' : MatchesValid accStart (accStart + acc.length)
      (segMatches q repl accStart acc.reverse) := by
    refine matchesValid_congr_n ?_ hhere
    simp
  exact matchesValid_append hhere' hrest' (by omega) (by omega)

end

/-- The cleared-then-scanned state of `find_replace_all`: the content
after the delegation pass and the snapshot of text matches. -/
def Buffer.replaceAllSnapshot (b : Buffer) (q : Query) (repl : List Char) :
    ElemList × List (Nat × Nat × List Char) :=
  (b.findClearOnNewQuery q.key).elems.replaceAllWalk q repl 0 []

theorem find_replace_all_eq (b : Buffer) (q : Query) (repl : List Char) :
    b.find_replace_all q repl
      = (Buffer.mk
          (ElemList.ofList (((b.replaceAllSnapshot q repl).2.map chMatch).reverse.foldl
            replaceOne (b.replaceAllSnapshot q repl).1.toList))
          (b.findClearOnNewQuery q.key).matchTag
          (b.findClearOnNewQuery q.key).highlightTag
          (b.findClearOnNewQuery q.key).highlightQuery,
        decide ((b.replaceAllSnapshot q repl).2.length > 0),
        BufOp.beginUserAction :: ((b.replaceAllSnapshot q repl).2.reverse.flatMap
            (fun m => [BufOp.delete m.1 m.2.1, BufOp.insert m.1 m.2.2])
          ++ [BufOp.endUserAction])) := by
  simp only [Buffer.find_replace_all]
  rfl

/-- C2 (amended): for every buffer state and valid query,
`find_replace_all` first computes the complete snapshot of text-match
offsets against the scanned content (embedded objects are delegated to
during that scan, their return values discarded), then applies the
replacements in reverse document order inside a single
`begin_user_action`/`end_user_action` group — which realises the
simultaneous replacement of the whole snapshot — and returns `True` iff
the snapshot of text matches is nonempty (replacements inside embedded
objects do not count). -/
theorem find_replace_all_snapshot_reverse_single_group :
    ∀ (b : Buffer) (q : Query) (repl : List Char), MatcherValid q →
    ((b.find_replace_all q repl).2.1 = true ↔ (b.replaceAllSnapshot q repl).2 ≠ [])
    ∧ (b.find_replace_all q repl).1.elems.toList
        = spliceFrom 0 (b.replaceAllSnapshot q repl).1.toList
            ((b.replaceAllSnapshot q repl).2.map chMatch)
    ∧ (b.find_replace_all q repl).2.2
        = BufOp.beginUserAction :: ((b.replaceAllSnapshot q repl).2.reverse.flatMap
            (fun m => [BufOp.delete m.1 m.2.1, BufOp.insert m.1 m.2.2])
          ++ [BufOp.endUserAction]) := by
  intro b q repl hq
  rw [find_replace_all_eq]
  refine ⟨?_, ?_, rfl⟩
  · show decide ((b.replaceAllSnapshot q repl).2.length > 0) = true ↔ _
    rw [decide_eq_true_eq]
    exact List.length_pos
  · show (ElemList.ofList (((b.replaceAllSnapshot q repl).2.map chMatch).reverse.foldl
        replaceOne (b.replaceAllSnapshot q repl).1.toList)).toList = _
    rw [ElemList.toList_ofList]
    have hvalid0 := replaceAllWalk_matches_valid q repl hq
      (b.findClearOnNewQuery q.key).elems 0 []
    have hlen := replaceAllWalk_toList_length q repl
      (b.findClearOnNewQuery q.key).elems 0 []
    have hvalid : MatchesValid 0 (0 + (b.replaceAllSnapshot q repl).1.toList.length)
        ((b.replaceAllSnapshot q repl).2.map chMatch) := by
      refine matchesValid_chMatch (matchesValid_congr_n ?_ hvalid0)
      simp only [Buffer.replaceAllSnapshot]
      rw [hlen]
      simp
    have hmain := foldl_replaceOne_reverse_eq_spliceFrom
      ((b.replaceAllSnapshot q repl).2.map chMatch) 0
      (b.replaceAllSnapshot q repl).1.toList hvalid
    have hshift : ((b.replaceAllSnapshot q repl).2.map chMatch).map (shiftMatch 0)
        = (b.replaceAllSnapshot q repl).2.map chMatch := by
      refine (List.map_congr_left (fun m _ => shiftMatch_zero m)).trans
        (List.map_id _)
    rw [hshift] at hmain
    exact hmain

/-- The query `"x"` (plain flags) with its regex behaviour spelled out:
it matches exactly the single-character segment `x`. -/
def cexQuery : Query :=
  ⟨("x", 0), fun text => if text = ['x'] then [(0, 1)] else [], fun _ t => t⟩

/-- A nested find-capable object containing the text `x`. -/
def cexInner : Buffer := .mk (.cons (.ch 'x') .nil) [] [] none

/-- A buffer whose only content is that embedded object. -/
def cexBuf : Buffer := .mk (.cons (.obj (.nested cexInner)) .nil) [] [] none

theorem cexQuery_valid : MatcherValid cexQuery := by
  intro text
  show SpanChain 0 text.length (if text = ['x'] then [(0, 1)] else [])
  by_cases h : text = ['x']
  · subst h
    rw [if_pos rfl]
    exact ⟨Nat.le_refl 0, Nat.zero_le 1, Nat.le_refl 1, trivial⟩
  · rw [if_neg h]
    trivial

/-- C2, claim as stated, is false: in this buffer the only match is
inside an embedded object; `find_replace_all` performs the replacement
there (the nested text changes from `x` to `y`), yet returns `False`
because the return value counts only direct text matches. -/
theorem find_replace_all_object_replacement_not_counted :
    (cexBuf.find_replace_all cexQuery ['y']).2.1 = false
    ∧ (cexBuf.find_replace_all cexQuery ['y']).1
        = Buffer.mk
            (.cons (.obj (.nested (Buffer.mk (.cons (.ch 'y') .nil) [] [] none))) .nil)
            [] [] none
    ∧ cexInner.elems ≠ ElemList.cons (BufElem.ch 'y') ElemList.nil := by
  refine ⟨?_, ?_, ?_⟩
  · simp [cexBuf, cexInner, cexQuery, Buffer.find_replace_all, Buffer.findClearOnNewQuery,
      ElemList.replaceAllWalk, segMatches, Buffer.elems, Buffer.matchTag,
      Buffer.highlightTag, Buffer.highlightQuery, ElemList.toList, ElemList.ofList,
      replaceOne, deleteRange, insertAt, chMatch]
  · simp [cexBuf, cexInner, cexQuery, Buffer.find_replace_all, Buffer.findClearOnNewQuery,
      ElemList.replaceAllWalk, segMatches, Buffer.elems, Buffer.matchTag,
      Buffer.highlightTag, Buffer.highlightQuery, ElemList.toList, ElemList.ofList,
      replaceOne, deleteRange, insertAt, chMatch, FIND_REGEX]
  · intro h
    rw [cexInner] at h
    simp [Buffer.elems] at h

/-- Witness for the amended C2 at the concrete buffer and query above:
the return value reflects the (empty) snapshot of direct text matches,
the buffer text equals the simultaneous splice, and the trace is one
user-action group. -/
theorem find_replace_all_snapshot_witness :
    ((cexBuf.find_replace_all cexQuery ['y']).2.1 = true
        ↔ (cexBuf.replaceAllSnapshot cexQuery ['y']).2 ≠ [])
    ∧ (cexBuf.find_replace_all cexQuery ['y']).1.elems.toList
        = spliceFrom 0 (cexBuf.replaceAllSnapshot cexQuery ['y']).1.toList
            ((cexBuf.replaceAllSnapshot cexQuery ['y']).2.map chMatch) :=
  ⟨(find_replace_all_snapshot_reverse_single_group cexBuf cexQuery ['y'] cexQuery_valid).1,
   (find_replace_all_snapshot_reverse_single_group cexBuf cexQuery ['y'] cexQuery_valid).2.1⟩

end ZimFindBuffer
